import Mathlib

/-!
Shallow embedding of the candidate lifecycle manager of the vless_scanner
repository (src/core/database.py, src/core/pipeline.py, src/core/tester.py),
together with theorems settling the frozen claims about it.

Modelling conventions:
* The servers table is a list of rows; every SQL column is a field of the
  Row structure, nullable columns are Option-typed.
* Timestamps are integers (seconds); datetime.timedelta(hours=h) is h * 3600.
  The wall clock (datetime.now) is passed in as an explicit parameter.
* Python float columns (download, upload) are modelled as rationals.
* A Python exception escaping an operation (KeyError on a missing dict key,
  TypeError on comparing an int with None) is modelled by the operation
  returning none; since save_latency_test_results only commits at the end,
  an exception means the transaction is never committed and the persistent
  store is unchanged.
* SQL three-valued logic is modelled by Bool-valued predicates on the
  nullable fields: a comparison with NULL is false, and SQLite sorts NULL
  below every value (first under ASC, last under DESC).
-/

/-- A row of the servers table (schema v5 in database.py). -/
structure Row where
  id : Nat
  link : String
  status : Option String
  delay : Option Int
  download : Option Rat
  upload : Option Rat
  location : Option String
  last_tested : Option Int
  speed_tested_at : Option Int
  retry_count : Nat
deriving Repr, DecidableEq

/-- The servers table. -/
abbrev Store := List Row

/-- One row of the csv output of the external measurement process, as the
dict handed to DatabaseManager; a missing key is none. -/
structure TestResult where
  link : Option String
  status : Option String
  delay : Option Int
  location : Option String
  download : Option Rat
  upload : Option Rat
deriving Repr, DecidableEq

/-- Schema invariant: link is UNIQUE in the servers table. -/
def linksNodup (s : Store) : Prop := (s.map Row.link).Nodup

/-- Schema invariant: id is the INTEGER PRIMARY KEY of the servers table. -/
def idsNodup (s : Store) : Prop := (s.map Row.id).Nodup

/-- A fresh id for an inserted row: one more than the largest id in use
(SQLite assigns largest rowid plus one). -/
def freshId (s : Store) : Nat := (s.foldr (fun r m => max r.id m) 0) + 1

/-- SQL predicate: status != 'failed'. Under three-valued logic a NULL
status makes the comparison NULL, hence not selected. -/
def statusNeFailedSQL (st : Option String) : Bool :=
  match st with
  | none => false
  | some v => decide (v ≠ "failed")

/-- SQL predicate: location = l for a non-NULL parameter l; false when the
column is NULL. -/
def locEqSQL (loc : Option String) (l : String) : Bool :=
  match loc with
  | none => false
  | some v => decide (v = l)

/-- SQL predicate: last_tested < t; false when the column is NULL. -/
def tsLtSQL (ts : Option Int) (t : Int) : Bool :=
  match ts with
  | none => false
  | some x => decide (x < t)

/-- Row filter of both location queries in _handle_passed_server:
WHERE location = l AND status != 'failed'. -/
def poolPred (l : String) (r : Row) : Bool :=
  locEqSQL r.location l && statusNeFailedSQL r.status

/-- The active candidates of a location (rows selected by poolPred). -/
def pool (s : Store) (l : String) : List Row := s.filter (poolPred l)

/-- SELECT COUNT(*) FROM servers WHERE location = l AND status != 'failed'. -/
def locCount (s : Store) (l : String) : Nat := (pool s l).length

/-- ORDER BY delay DESC comparison on the nullable delay column: a ranks
strictly before b. SQLite treats NULL as smaller than every value, so a
NULL delay sorts last under DESC. -/
def delayGt (a b : Option Int) : Bool :=
  match a, b with
  | none, _ => false
  | some _, none => true
  | some x, some y => decide (y < x)

/-- Equality of two nullable delay values as sort keys. -/
def delayEqSQL (a b : Option Int) : Bool :=
  match a, b with
  | none, none => true
  | some x, some y => decide (x = y)
  | _, _ => false

/-- ORDER BY last_tested ASC comparison on the nullable last_tested column:
a ranks strictly before b. NULL sorts first under ASC. -/
def ltstLt (a b : Option Int) : Bool :=
  match a, b with
  | none, some _ => true
  | none, none => false
  | some _, none => false
  | some x, some y => decide (x < y)

/-- a ranks strictly before b under ORDER BY delay DESC, last_tested ASC
(the worst-server query of _handle_passed_server). -/
def worstBefore (a b : Row) : Bool :=
  delayGt a.delay b.delay ||
    (delayEqSQL a.delay b.delay && ltstLt a.last_tested b.last_tested)

/-- SELECT id, delay FROM servers WHERE location = l AND status != 'failed'
ORDER BY delay DESC, last_tested ASC LIMIT 1: the first row of the ordering
(rows tied on both keys are returned in table order). -/
def worstServer (s : Store) (l : String) : Option Row :=
  (pool s l).foldl
    (fun acc r =>
      match acc with
      | none => some r
      | some w => if worstBefore r w then some r else some w)
    none

/-- The INSERT ... ON CONFLICT(link) DO UPDATE of _handle_passed_server:
sets status='latency_passed', delay, location, last_tested, retry_count=0,
leaving download, upload and speed_tested_at of an existing row untouched. -/
def upsertPassed (s : Store) (lk : String) (nd : Int) (loc : Option String)
    (now : Int) : Store :=
  if s.any (fun r => r.link == lk) then
    s.map (fun r =>
      if r.link == lk then
        { r with status := some "latency_passed", delay := some nd,
                 location := loc, last_tested := some now, retry_count := 0 }
      else r)
  else
    s ++ [{ id := freshId s, link := lk, status := some "latency_passed",
            delay := some nd, download := none, upload := none,
            location := loc, last_tested := some now,
            speed_tested_at := none, retry_count := 0 }]

/-- res['link'] followed by the passed-server upsert; none models the
KeyError raised when the link key is missing. -/
def doPassUpsert (s : Store) (lnk : Option String) (nd : Int)
    (loc : Option String) (now : Int) : Option Store :=
  match lnk with
  | none => none
  | some lk => some (upsertPassed s lk nd loc now)

/-- DatabaseManager._handle_passed_server (database.py lines 86-109).
The location is truthy in Python exactly when it is a non-NULL non-empty
string; only then are the worst-server query, the count query and the
capacity check performed. Comparing the new delay with a NULL worst delay
raises a TypeError, modelled by none. -/
def handlePassedServer (maxPerLoc : Nat) (now : Int) (res : TestResult)
    (s : Store) : Option Store :=
  let nd : Int := res.delay.getD 0
  match res.location with
  | none => doPassUpsert s res.link nd none now
  | some l =>
    if l = "" then doPassUpsert s res.link nd (some l) now
    else
      let w := worstServer s l
      let cnt := locCount s l
      if maxPerLoc ≤ cnt then
        match w with
        | none => some s
        | some wrow =>
          match wrow.delay with
          | none => none
          | some wd =>
            if wd ≤ nd then some s
            else
              doPassUpsert (s.filter (fun r => !(r.id == wrow.id)))
                res.link nd (some l) now
      else doPassUpsert s res.link nd (some l) now

/-- The INSERT ... ON CONFLICT(link) DO UPDATE of _handle_failed_server:
a new row gets retry_count 1, an existing row keeps all other fields and
gets retry_count incremented by one. -/
def upsertFailed (s : Store) (lk : String) (now : Int) : Store :=
  if s.any (fun r => r.link == lk) then
    s.map (fun r =>
      if r.link == lk then
        { r with status := some "failed", last_tested := some now,
                 retry_count := r.retry_count + 1 }
      else r)
  else
    s ++ [{ id := freshId s, link := lk, status := some "failed",
            delay := none, download := none, upload := none,
            location := none, last_tested := some now,
            speed_tested_at := none, retry_count := 1 }]

/-- DatabaseManager._handle_failed_server (database.py lines 111-113);
none models the KeyError on a row without a link key. -/
def handleFailedServer (now : Int) (res : TestResult) (s : Store) :
    Option Store :=
  match res.link with
  | none => none
  | some lk => some (upsertFailed s lk now)

/-- DatabaseManager.save_latency_test_results (database.py lines 77-84):
one transaction over the whole batch, each row dispatched on
res.get('status') == 'passed'; an exception anywhere aborts the batch
before the commit, so none means the store is left as it was. -/
def saveLatencyTestResults (maxPerLoc : Nat) (now : Int)
    (results : List TestResult) (s : Store) : Option Store :=
  results.foldlM
    (fun st r =>
      if r.status == some "passed" then handlePassedServer maxPerLoc now r st
      else handleFailedServer now r st)
    s

/-- Row filter of the scheduler query in get_links_to_test:
(status = 'failed' AND retry_count < maxRetries)
OR (last_tested IS NULL OR last_tested < threshold). -/
def linksToTestPred (maxRetries : Nat) (threshold : Int) (r : Row) : Bool :=
  (r.status == some "failed" && decide (r.retry_count < maxRetries)) ||
    (r.last_tested == none || tsLtSQL r.last_tested threshold)

/-- DatabaseManager.get_links_to_test (database.py lines 63-75): starts
from the set of new links and adds every stored link matched by the
scheduler query; the retest threshold is now minus the window in hours. -/
def getLinksToTest (newLinks : Finset String) (retestWindowHours : Int)
    (maxRetries : Nat) (now : Int) (s : Store) : Finset String :=
  s.foldl
    (fun acc r =>
      if linksToTestPred maxRetries (now - retestWindowHours * 3600) r then
        insert r.link acc
      else acc)
    newLinks

/-- The dict comprehension of Pipeline._perform_selective_speed_tests
(pipeline.py line 113): results_map maps a link to the last passed result
row carrying it (a dict comprehension lets later entries win). -/
def resultsMapLookup (results : List TestResult) (lk : String) :
    Option TestResult :=
  (results.filter (fun r => r.status == some "passed" && r.link == some lk)).getLast?

/-- The save_speed_test_result calls issued while iterating one location
(pipeline.py lines 117-120): one call per candidate link found in
results_map, in candidate order. -/
def savedSpeedResults (results : List TestResult) (cands : List String) :
    List TestResult :=
  cands.filterMap (resultsMapLookup results)

/-- The best_for_loc loop of Pipeline._perform_selective_speed_tests
(pipeline.py lines 116-126): skip candidates without a passed result,
skip results below the minimum download threshold, otherwise keep the
result with the strictly largest download seen so far. -/
def bestForLoc (minMbps : Rat) (results : List TestResult)
    (cands : List String) : Option TestResult :=
  cands.foldl
    (fun best lk =>
      match resultsMapLookup results lk with
      | none => best
      | some result =>
        if result.download.getD 0 < minMbps then best
        else
          match best with
          | none => some result
          | some b =>
            if b.download.getD 0 < result.download.getD 0 then some result
            else best)
    none

/-- The best_servers mapping built by the location loop (pipeline.py lines
115-130): a location contributes its best result's link exactly when the
loop selected one. -/
def bestServers (minMbps : Rat) (results : List TestResult)
    (locs : List (String × List String)) : List (String × Option String) :=
  locs.filterMap (fun p =>
    (bestForLoc minMbps results p.2).map (fun b => (p.1, b.link)))

/-- DatabaseManager.save_speed_test_result (database.py lines 115-118):
UPDATE servers SET status='speed_passed', download, upload, speed_tested_at
WHERE link = ?; none models the KeyError on result['link']. -/
def saveSpeedTestResult (res : TestResult) (now : Int) (s : Store) :
    Option Store :=
  match res.link with
  | none => none
  | some lk =>
    some (s.map (fun r =>
      if r.link == lk then
        { r with status := some "speed_passed",
                 download := some (res.download.getD 0),
                 upload := some (res.upload.getD 0),
                 speed_tested_at := some now }
      else r))

/-- ORDER BY x DESC on a nullable column, as a strict comparison: a ranks
strictly before b. In SQLite NULL is smaller than every value, so NULL
sorts last under DESC; the queries of get_proxy_candidates make this
explicit with a leading (x IS NULL) ASC key, which coincides with it. -/
def optGtB {γ : Type} [LinearOrder γ] (a b : Option γ) : Bool :=
  match a, b with
  | none, _ => false
  | some _, none => true
  | some x, some y => decide (y < x)

/-- (x IS NULL) ASC, x ASC on a nullable column, as a strict comparison:
non-NULL values ascending, NULL last. -/
def optLtB {γ : Type} [LinearOrder γ] (a b : Option γ) : Bool :=
  match a, b with
  | none, _ => false
  | some _, none => true
  | some x, some y => decide (x < y)

/-- a ranks strictly before b under ORDER BY (download IS NULL) ASC,
download DESC, (speed_tested_at IS NULL) ASC, speed_tested_at DESC
(the speed_passed query of get_proxy_candidates). -/
def speedBefore (a b : Row) : Bool :=
  optGtB a.download b.download ||
    (a.download == b.download && optGtB a.speed_tested_at b.speed_tested_at)

/-- Non-strict version of speedBefore: a need not come after b. -/
def speedLe (a b : Row) : Bool := !(speedBefore b a)

/-- a ranks strictly before b under ORDER BY (delay IS NULL) ASC, delay
ASC, (last_tested IS NULL) ASC, last_tested DESC (the latency_passed
query of get_proxy_candidates). -/
def latencyBefore (a b : Row) : Bool :=
  optLtB a.delay b.delay ||
    (a.delay == b.delay && optGtB a.last_tested b.last_tested)

/-- Non-strict version of latencyBefore: a need not come after b. -/
def latencyLe (a b : Row) : Bool := !(latencyBefore b a)

/-- Insertion into a ranked list: r goes in front of the first element it
need not come after. -/
def insertRanked (le : Row → Row → Bool) (r : Row) : List Row → List Row
  | [] => [r]
  | x :: xs => if le r x then r :: x :: xs else x :: insertRanked le r xs

/-- Sorting by repeated ranked insertion, modelling an ORDER BY clause
(rows tied on every key appear in an unspecified order in SQLite; this
model fixes one). -/
def rankSort (le : Row → Row → Bool) : List Row → List Row
  | [] => []
  | x :: xs => insertRanked le x (rankSort le xs)

/-- The speed_passed ranking of get_proxy_candidates (database.py lines
144-149) before the LIMIT: rows with status speed_passed in query order. -/
def speedRanked (s : Store) : List Row :=
  rankSort speedLe (s.filter (fun r => r.status == some "speed_passed"))

/-- The latency_passed ranking of get_proxy_candidates (database.py lines
157-162) before the LIMIT: rows with status latency_passed in query
order. -/
def latencyRanked (s : Store) : List Row :=
  rankSort latencyLe (s.filter (fun r => r.status == some "latency_passed"))

/-- DatabaseManager.get_proxy_candidates (database.py lines 135-166):
under the speed_passed selector, the speed_passed ranking limited to
max_links is returned when non-empty; otherwise (and under every other
selector) the latency_passed ranking limited to max_links is returned. -/
def getProxyCandidates (selector : String) (maxLinks : Nat) (s : Store) :
    List String :=
  let links :=
    if selector = "speed_passed" then
      ((speedRanked s).take maxLinks).map Row.link
    else []
  if links ≠ [] then links
  else ((latencyRanked s).take maxLinks).map Row.link

/-- Outcome of one invocation of the external measurement process: a
normal exit with parsed csv rows, or a non-zero exit with its stderr. -/
inductive TesterOutcome where
  | ok (rows : List TestResult)
  | procFail (stderr : String)
deriving Repr, DecidableEq

/-- XrayKnifeTester.run_test (tester.py lines 24-78): a normal exit yields
the parsed csv rows; a non-zero exit raises ServiceError with the child
process stderr embedded, modelled as the error branch. -/
def runTest (o : TesterOutcome) : Except String (List TestResult) :=
  match o with
  | .ok rows => .ok rows
  | .procFail stderr => .error ("xray-knife failed. Stderr:\n" ++ stderr)

/-- The stage sequencing of Pipeline.run (pipeline.py lines 21-89) from the
latency stage on: each stage is awaited inside a try block whose only
handler is a finally, so an exception raised by run_test propagates and the
remaining stages never execute. Returns the stages that completed and the
error that escaped, if any. -/
def pipelineStageTrace (lat spd : TesterOutcome) :
    List String × Option String :=
  match runTest lat with
  | .error e => ([], some e)
  | .ok _ =>
    match runTest spd with
    | .error e => (["latency"], some e)
    | .ok _ => (["latency", "speed", "upload"], none)

/-! ## Scheduler lemmas (get_links_to_test) -/

theorem mem_foldl_insertLink (p : Row → Bool) (lk : String) :
    ∀ (s : List Row) (init : Finset String),
      lk ∈ s.foldl (fun acc r => if p r then insert r.link acc else acc) init ↔
        lk ∈ init ∨ ∃ r ∈ s, p r = true ∧ r.link = lk := by
  intro s
  induction s with
  | nil => simp
  | cons r t ih =>
    intro init
    by_cases hp : p r = true
    · simp only [List.foldl_cons, hp, if_pos, ih, Finset.mem_insert]
      constructor
      · rintro ((h | h) | h)
        · right; exact ⟨r, by simp [hp, h]⟩
        · left; exact h
        · right; obtain ⟨x, hx, hpx, hl⟩ := h; exact ⟨x, by simp [hx, hpx, hl]⟩
      · rintro (h | ⟨x, hx, hpx, hl⟩)
        · exact Or.inl (Or.inr h)
        · rcases List.mem_cons.mp hx with rfl | hx
          · exact Or.inl (Or.inl hl.symm)
          · exact Or.inr ⟨x, hx, hpx, hl⟩
    · simp only [List.foldl_cons, if_neg hp, ih]
      constructor
      · rintro (h | ⟨x, hx, hpx, hl⟩)
        · exact Or.inl h
        · exact Or.inr ⟨x, List.mem_cons_of_mem _ hx, hpx, hl⟩
      · rintro (h | ⟨x, hx, hpx, hl⟩)
        · exact Or.inl h
        · rcases List.mem_cons.mp hx with rfl | hx
          · exact absurd hpx hp
          · exact Or.inr ⟨x, hx, hpx, hl⟩

theorem linksToTestPred_iff (maxR : Nat) (th : Int) (r : Row) :
    linksToTestPred maxR th r = true ↔
      (r.status = some "failed" ∧ r.retry_count < maxR) ∨
        (r.last_tested = none ∨ ∃ t, r.last_tested = some t ∧ t < th) := by
  unfold linksToTestPred tsLtSQL
  cases hs : r.status <;> cases ht : r.last_tested <;>
    simp [hs, ht, beq_iff_eq, and_comm]

/-- C5 (confirmed). The scheduler output is exactly the union of the new
links, the stored failed links with retry_count below max_retries, and the
stored links whose last_tested is NULL or older than now minus the retest
window: membership in getLinksToTest is equivalent to that disjunction. -/
theorem getLinksToTest_mem_iff_union (newLinks : Finset String)
    (retestWindowHours : Int) (maxRetries : Nat) (now : Int) (s : Store)
    (lk : String) :
    lk ∈ getLinksToTest newLinks retestWindowHours maxRetries now s ↔
      lk ∈ newLinks ∨
        (∃ r ∈ s, r.link = lk ∧ r.status = some "failed" ∧
           r.retry_count < maxRetries) ∨
        (∃ r ∈ s, r.link = lk ∧ (r.last_tested = none ∨
           ∃ t, r.last_tested = some t ∧ t < now - retestWindowHours * 3600)) := by
  unfold getLinksToTest
  rw [mem_foldl_insertLink]
  constructor
  · rintro (h | ⟨r, hr, hp, hl⟩)
    · exact Or.inl h
    · rcases (linksToTestPred_iff _ _ _).mp hp with h1 | h2
      · exact Or.inr (Or.inl ⟨r, hr, hl, h1⟩)
      · exact Or.inr (Or.inr ⟨r, hr, hl, h2⟩)
  · rintro (h | ⟨r, hr, hl, h1⟩ | ⟨r, hr, hl, h2⟩)
    · exact Or.inl h
    · exact Or.inr ⟨r, hr, (linksToTestPred_iff _ _ _).mpr (Or.inl h1), hl⟩
    · exact Or.inr ⟨r, hr, (linksToTestPred_iff _ _ _).mpr (Or.inr h2), hl⟩

/-- The stored row of claim C4's counterexample: a dead link (status
failed, retry_count 5 at max_retries 3) whose last_tested lies beyond the
retest window. -/
def c4Row : Row :=
  { id := 1, link := "x", status := some "failed", delay := none,
    download := none, upload := none, location := none,
    last_tested := some 0, speed_tested_at := none, retry_count := 5 }

/-- C4 counterexample. With max_retries 3, a retest window of 1 hour and
now = 10000, the stored link x is failed with retry_count 5 >= 3 and is
not among the (empty) new links, yet the scheduler output contains x,
because its last_tested 0 is older than now minus the window: the claimed
permanent exclusion does not hold for every last_tested value. -/
theorem c4_staleDeadLink_in_output :
    c4Row.status = some "failed" ∧ 3 ≤ c4Row.retry_count ∧
      "x" ∉ (∅ : Finset String) ∧
      "x" ∈ getLinksToTest ∅ 1 3 10000 [c4Row] := by
  refine ⟨rfl, by decide, by decide, ?_⟩
  rw [getLinksToTest_mem_iff_union]
  exact Or.inr (Or.inr ⟨c4Row, by simp, rfl, Or.inr ⟨0, rfl, by decide⟩⟩)

/-- C4 (corrected). A stored failed link with retry_count at or above
max_retries and not supplied as a new link is absent from the scheduler
output provided its last_tested is non-NULL and not older than now minus
the retest window; staleness overrides the dead-link exclusion. -/
theorem deadLink_excluded_unless_stale (newLinks : Finset String)
    (retestWindowHours : Int) (maxRetries : Nat) (now : Int) (s : Store)
    (lk : String) (t : Int)
    (hmem : ∀ r ∈ s, r.link = lk →
      r.status = some "failed" ∧ maxRetries ≤ r.retry_count ∧
        r.last_tested = some t)
    (hnew : lk ∉ newLinks)
    (hfresh : now - retestWindowHours * 3600 ≤ t) :
    lk ∉ getLinksToTest newLinks retestWindowHours maxRetries now s := by
  rw [getLinksToTest_mem_iff_union]
  rintro (h | ⟨r, hr, hl, hst, hretry⟩ | ⟨r, hr, hl, hlt⟩)
  · exact hnew h
  · exact absurd hretry (not_lt.mpr (hmem r hr hl).2.1)
  · obtain ⟨-, -, hts⟩ := hmem r hr hl
    rcases hlt with h0 | ⟨u, hu, hlt⟩
    · rw [hts] at h0; exact Option.noConfusion h0
    · rw [hts] at hu
      obtain rfl : t = u := Option.some_injective _ hu
      exact absurd hlt (not_lt.mpr hfresh)

/-- Witness for the corrected C4: the dead link x, last tested at 9000
with now = 10000 and a 1 hour window, is excluded from the scheduler
output. -/
theorem deadLink_excluded_witness :
    "x" ∉ getLinksToTest ∅ 1 3 10000
      [{ id := 1, link := "x", status := some "failed", delay := none,
         download := none, upload := none, location := none,
         last_tested := some 9000, speed_tested_at := none,
         retry_count := 5 }] :=
  deadLink_excluded_unless_stale ∅ 1 3 10000 _ "x" 9000
    (by intro r hr hl; simp only [List.mem_singleton] at hr; subst hr
        exact ⟨rfl, by decide, rfl⟩)
    (by decide) (by decide)

/-! ## Measurement failure and malformed rows (tester.py, pipeline.py,
save_latency_test_results) -/

/-- C8 counterexample. When the latency-stage measurement process exits
non-zero, the ServiceError escapes Pipeline.run: no stage completes (the
results are not treated as an empty batch) and the error aborts the run
instead of the pipeline continuing to the speed stage. -/
theorem c8_procFail_aborts_run :
    pipelineStageTrace (.procFail "boom") (.ok []) =
        ([], some "xray-knife failed. Stderr:\nboom") ∧
      (pipelineStageTrace (.procFail "boom") (.ok [])).2 ≠ none := by
  exact ⟨rfl, by simp [pipelineStageTrace, runTest]⟩

/-- C8 (corrected). A non-zero exit of the external measurement process
makes run_test raise ServiceError; the exception propagates through
Pipeline.run (whose try block has only a finally handler), so the run
aborts with that error and no later stage executes, rather than the stage
being treated as an empty result batch. -/
theorem procFail_propagates_and_aborts (stderr : String)
    (spd : TesterOutcome) :
    runTest (.procFail stderr) =
        .error ("xray-knife failed. Stderr:\n" ++ stderr) ∧
      pipelineStageTrace (.procFail stderr) spd =
        ([], some ("xray-knife failed. Stderr:\n" ++ stderr)) := by
  exact ⟨rfl, rfl⟩

/-- A well-formed passed latency row used in the C9 counterexample. -/
def c9GoodRes : TestResult :=
  { link := some "g", status := some "passed", delay := some 10,
    location := none, download := none, upload := none }

/-- A malformed latency row (no link key) used in the C9 counterexample. -/
def c9BadRes : TestResult :=
  { link := none, status := some "failed", delay := none,
    location := none, download := none, upload := none }

/-- C9 counterexample. A batch holding a valid passed row followed by a
row without a link aborts: save_latency_test_results raises KeyError
before committing, so no store is produced and the valid row is not
merged, contradicting the claimed skip-with-warning behaviour. -/
theorem c9_malformedRow_aborts_batch :
    c9BadRes.link = none ∧ c9GoodRes.status = some "passed" ∧
      saveLatencyTestResults 2 0 [c9GoodRes, c9BadRes] [] = none := by
  refine ⟨rfl, rfl, ?_⟩
  decide

/-- C9 (corrected). A latency batch containing a row that lacks the link
key and is not a passed row makes save_latency_test_results raise KeyError
in _handle_failed_server: the whole batch aborts before the commit and no
row of the batch, valid or not, is merged into the store. -/
theorem malformedRow_aborts_whole_batch (maxPerLoc : Nat) (now : Int)
    (results : List TestResult) (s : Store)
    (hbad : ∃ r ∈ results, r.link = none ∧ r.status ≠ some "passed") :
    saveLatencyTestResults maxPerLoc now results s = none := by
  induction results generalizing s with
  | nil => simp at hbad
  | cons a t ih =>
    obtain ⟨r, hr, hlink, hst⟩ := hbad
    rw [saveLatencyTestResults, List.foldlM_cons]
    rcases List.mem_cons.mp hr with rfl | hr
    · have hbeq : (r.status == some "passed") = false := by
        cases h : r.status == some "passed"
        · rfl
        · exact absurd (eq_of_beq h) hst
      rw [hbeq]
      simp only [Bool.false_eq_true, if_false]
      rw [handleFailedServer, hlink]
      rfl
    · cases hstep : (if a.status == some "passed" then
          handlePassedServer maxPerLoc now a s else handleFailedServer now a s) with
      | none => rfl
      | some s1 =>
        exact ih s1 ⟨r, hr, hlink, hst⟩

/-- Witness for the corrected C9: a one-row batch holding only the
malformed row aborts on the empty store. -/
theorem malformedRow_aborts_witness :
    saveLatencyTestResults 3 7 [c9BadRes] [] = none :=
  malformedRow_aborts_whole_batch 3 7 [c9BadRes] [] (by decide)

/-! ## Location-count lemmas for the eviction policy -/

theorem locCount_cons (x : Row) (xs : Store) (l : String) :
    locCount (x :: xs) l =
      locCount xs l + (if poolPred l x then 1 else 0) := by
  simp only [locCount, pool, List.filter_cons]
  split <;> simp [Nat.add_comm]

theorem locCount_le_length (s : Store) (l : String) :
    locCount s l ≤ s.length :=
  List.length_filter_le _ s

theorem locCount_append_single (s : Store) (x : Row) (l : String) :
    locCount (s ++ [x]) l =
      locCount s l + (if poolPred l x then 1 else 0) := by
  simp only [locCount, pool, List.filter_append, List.length_append,
    List.filter_cons, List.filter_nil]
  split <;> simp

theorem locCount_filter_le (s : Store) (q : Row → Bool) (l : String) :
    locCount (s.filter q) l ≤ locCount s l :=
  (List.Sublist.filter (poolPred l)
    (List.filter_sublist s : (s.filter q).Sublist s)).length_le

theorem length_filter_lt_of_mem {α : Type} {x : α} {xs : List α}
    {p : α → Bool} (hx : x ∈ xs) (hp : p x = false) :
    (xs.filter p).length < xs.length := by
  induction xs with
  | nil => cases hx
  | cons a t ih =>
    rcases List.mem_cons.mp hx with rfl | hx
    · rw [List.filter_cons, hp]
      simpa using Nat.lt_succ_of_le (List.length_filter_le p t)
    · rw [List.filter_cons]
      split
      · simpa using ih hx
      · exact Nat.lt_succ_of_lt (ih hx)

theorem locCount_eraseId_lt {s : Store} {w : Row} {l : String}
    (hw : w ∈ s) (hp : poolPred l w = true) :
    locCount (s.filter (fun r => !(r.id == w.id))) l < locCount s l := by
  have h1 : pool (s.filter (fun r => !(r.id == w.id))) l =
      (pool s l).filter (fun r => !(r.id == w.id)) := by
    simp only [pool, List.filter_filter]
    exact List.filter_congr (fun r _ => Bool.and_comm _ _)
  rw [locCount, h1]
  exact length_filter_lt_of_mem (List.mem_filter.mpr ⟨hw, hp⟩) (by simp)

theorem map_noLink_eq_self (lk : String) (f : Row → Row)
    (hf : ∀ r, r.link ≠ lk → f r = r) :
    ∀ (t : Store), (∀ x ∈ t, x.link ≠ lk) → t.map f = t := by
  intro t ht
  have : t.map f = t.map id := List.map_congr_left (fun a ha => hf a (ht a ha))
  simpa using this

theorem not_mem_link_of_any_false {s : Store} {lk : String}
    (h : s.any (fun r => r.link == lk) = false) :
    ∀ x ∈ s, x.link ≠ lk := by
  intro x hx
  have := List.any_eq_false.mp h x hx
  simpa using this

theorem nodup_link_head {r : Row} {t : Store}
    (h : linksNodup (r :: t)) : (∀ x ∈ t, x.link ≠ r.link) ∧ linksNodup t := by
  rw [linksNodup, List.map_cons, List.nodup_cons] at h
  exact ⟨fun x hx he => h.1 (he ▸ List.mem_map_of_mem Row.link hx), h.2⟩

theorem locCount_upsertPassed_le {s : Store} (lk : String) (nd : Int)
    (loc : Option String) (now : Int) (l : String) (h : linksNodup s) :
    locCount (upsertPassed s lk nd loc now) l ≤
      locCount s l + (if locEqSQL loc l then 1 else 0) := by
  unfold upsertPassed
  split
  · -- conflict: the existing row is updated in place
    rename_i hany
    clear hany
    induction s with
    | nil => simp [locCount, pool]
    | cons r t ih =>
      obtain ⟨hnot, ht⟩ := nodup_link_head h
      rw [List.map_cons]
      by_cases hr : (r.link == lk) = true
      · rw [if_pos hr]
        have hteq : t.map (fun r => if (r.link == lk) = true then
            { r with status := some "latency_passed", delay := some nd,
                     location := loc, last_tested := some now,
                     retry_count := 0 } else r) = t := by
          apply map_noLink_eq_self lk
          · intro x hx
            rw [if_neg (by simpa using hx)]
          · intro x hx
            rw [eq_of_beq hr] at hnot
            exact hnot x hx
        rw [hteq, locCount_cons, locCount_cons]
        have hpu : poolPred l { r with
            status := some "latency_passed", delay := some nd,
            location := loc, last_tested := some now,
            retry_count := 0 } = locEqSQL loc l := by
          simp [poolPred, statusNeFailedSQL]
        rw [hpu]
        omega
      · rw [if_neg hr, locCount_cons, locCount_cons]
        have := ih ht
        omega
  · rw [locCount_append_single]
    have hpu : poolPred l {
        id := freshId s, link := lk,
        status := some "latency_passed", delay := some nd, download := none,
        upload := none, location := loc, last_tested := some now,
        speed_tested_at := none, retry_count := 0 } = locEqSQL loc l := by
      simp [poolPred, statusNeFailedSQL]
    rw [hpu]

theorem locCount_upsertFailed_le (s : Store) (lk : String) (now : Int)
    (l : String) :
    locCount (upsertFailed s lk now) l ≤ locCount s l := by
  unfold upsertFailed
  split
  · rename_i hany
    clear hany
    induction s with
    | nil => simp [locCount, pool]
    | cons r t ih =>
      rw [List.map_cons, locCount_cons, locCount_cons]
      have hhead : (if poolPred l (if (r.link == lk) = true then
          { r with
            status := some "failed", last_tested := some now,
            retry_count := r.retry_count + 1 } else r) then 1 else 0) ≤
          (if poolPred l r then 1 else 0) := by
        by_cases hr : (r.link == lk) = true
        · rw [if_pos hr]
          have hf : poolPred l { r with
              status := some "failed", last_tested := some now,
              retry_count := r.retry_count + 1 } = false := by
            simp [poolPred, statusNeFailedSQL]
          rw [hf]
          simp
        · rw [if_neg hr]
      omega
  · rw [locCount_append_single]
    have hf : poolPred l {
        id := freshId s, link := lk,
        status := some "failed", delay := none, download := none,
        upload := none, location := none, last_tested := some now,
        speed_tested_at := none, retry_count := 1 } = false := by
      simp [poolPred, statusNeFailedSQL, locEqSQL]
    rw [hf]
    simp

/-! ## Link-uniqueness preservation and the capacity invariant -/

theorem linksNodup_upsertPassed {s : Store} (lk : String) (nd : Int)
    (loc : Option String) (now : Int) (h : linksNodup s) :
    linksNodup (upsertPassed s lk nd loc now) := by
  unfold upsertPassed
  split
  · rw [linksNodup, List.map_map]
    have : s.map (Row.link ∘ fun r => if (r.link == lk) = true then
        { r with
          status := some "latency_passed", delay := some nd,
          location := loc, last_tested := some now,
          retry_count := 0 } else r) = s.map Row.link := by
      apply List.map_congr_left
      intro a _
      by_cases ha : (a.link == lk) = true
      · simp [Function.comp, ha]
      · simp [Function.comp, ha]
    rw [this]
    exact h
  · rename_i hany
    rw [linksNodup, List.map_append, List.nodup_append]
    refine ⟨h, List.nodup_singleton _, ?_⟩
    intro a ha hb
    simp only [List.map_cons, List.map_nil, List.mem_singleton] at hb
    obtain ⟨r, hr, hrl⟩ := List.mem_map.mp ha
    have := not_mem_link_of_any_false (Bool.of_not_eq_true hany) r hr
    exact this (hrl.trans hb)

theorem linksNodup_upsertFailed {s : Store} (lk : String) (now : Int)
    (h : linksNodup s) : linksNodup (upsertFailed s lk now) := by
  unfold upsertFailed
  split
  · rw [linksNodup, List.map_map]
    have : s.map (Row.link ∘ fun r => if (r.link == lk) = true then
        { r with
          status := some "failed", last_tested := some now,
          retry_count := r.retry_count + 1 } else r) = s.map Row.link := by
      apply List.map_congr_left
      intro a _
      by_cases ha : (a.link == lk) = true
      · simp [Function.comp, ha]
      · simp [Function.comp, ha]
    rw [this]
    exact h
  · rename_i hany
    rw [linksNodup, List.map_append, List.nodup_append]
    refine ⟨h, List.nodup_singleton _, ?_⟩
    intro a ha hb
    simp only [List.map_cons, List.map_nil, List.mem_singleton] at hb
    obtain ⟨r, hr, hrl⟩ := List.mem_map.mp ha
    have := not_mem_link_of_any_false (Bool.of_not_eq_true hany) r hr
    exact this (hrl.trans hb)

theorem linksNodup_filter {s : Store} (q : Row → Bool) (h : linksNodup s) :
    linksNodup (s.filter q) :=
  List.Nodup.sublist
    (List.Sublist.map Row.link
      (List.filter_sublist s : (s.filter q).Sublist s)) h

theorem foldl_choice_mem (pick : Row → Row → Bool) :
    ∀ (xs : List Row) (acc : Option Row) (w : Row),
      xs.foldl (fun acc r =>
        match acc with
        | none => some r
        | some v => if pick r v then some r else some v) acc = some w →
      acc = some w ∨ w ∈ xs := by
  intro xs
  induction xs with
  | nil => intro acc w h; exact Or.inl h
  | cons x t ih =>
    intro acc w h
    rcases ih _ w h with h' | h'
    · cases acc with
      | none =>
        simp only at h'
        exact Or.inr (List.mem_cons.mpr (Or.inl (Option.some_injective _ h').symm))
      | some v =>
        simp only at h'
        split at h'
        · exact Or.inr (List.mem_cons.mpr (Or.inl (Option.some_injective _ h').symm))
        · exact Or.inl h'
    · exact Or.inr (List.mem_cons_of_mem _ h')

theorem worstServer_mem {s : Store} {l : String} {w : Row}
    (h : worstServer s l = some w) : w ∈ pool s l := by
  unfold worstServer at h
  rcases foldl_choice_mem worstBefore (pool s l) none w h with h' | h'
  · exact absurd h' (by simp)
  · exact h'


theorem locCount_upsertPassed_succ {s : Store} (lk : String) (nd : Int)
    (loc : Option String) (now : Int) (l : String) (h : linksNodup s) :
    locCount (upsertPassed s lk nd loc now) l ≤ locCount s l + 1 := by
  have hb := locCount_upsertPassed_le lk nd loc now l h
  cases hc : locEqSQL loc l <;> rw [hc] at hb <;> simp at hb <;> omega

theorem locCount_upsertPassed_of_locNe {s : Store} (lk : String) (nd : Int)
    (loc : Option String) (now : Int) (l : String) (h : linksNodup s)
    (hz : locEqSQL loc l = false) :
    locCount (upsertPassed s lk nd loc now) l ≤ locCount s l := by
  have hb := locCount_upsertPassed_le lk nd loc now l h
  rw [hz] at hb
  simpa using hb

theorem handlePassed_preserves {maxN : Nat} {now : Int} {res : TestResult}
    {s s' : Store} (h1 : linksNodup s)
    (h2 : ∀ l, l ≠ "" → locCount s l ≤ maxN)
    (hstep : handlePassedServer maxN now res s = some s') :
    linksNodup s' ∧ ∀ l, l ≠ "" → locCount s' l ≤ maxN := by
  obtain ⟨rlink, rstatus, rdelay, rloc, rdl, rup⟩ := res
  cases rloc with
  | none =>
    cases rlink with
    | none => simp [handlePassedServer, doPassUpsert] at hstep
    | some lk =>
      simp only [handlePassedServer, doPassUpsert, Option.some.injEq] at hstep
      subst hstep
      refine ⟨linksNodup_upsertPassed lk _ none now h1, fun l hl => ?_⟩
      have hb := locCount_upsertPassed_of_locNe (s := s) lk (rdelay.getD 0)
        none now l h1 rfl
      have := h2 l hl
      omega
  | some l0 =>
    simp only [handlePassedServer, doPassUpsert] at hstep
    by_cases hl0 : l0 = ""
    · rw [if_pos hl0] at hstep
      cases rlink with
      | none => simp at hstep
      | some lk =>
        simp only [Option.some.injEq] at hstep
        subst hstep
        refine ⟨linksNodup_upsertPassed lk _ (some l0) now h1, fun l hl => ?_⟩
        have hz : locEqSQL (some l0) l = false := by
          subst hl0
          simp [locEqSQL]
          exact fun he => hl he.symm
        have hb := locCount_upsertPassed_of_locNe (s := s) lk (rdelay.getD 0)
          (some l0) now l h1 hz
        have := h2 l hl
        omega
    · rw [if_neg hl0] at hstep
      by_cases hcnt : maxN ≤ locCount s l0
      · rw [if_pos hcnt] at hstep
        cases hw : worstServer s l0 with
        | none =>
          rw [hw] at hstep
          dsimp only at hstep
          obtain rfl := Option.some_injective _ hstep
          exact ⟨h1, h2⟩
        | some wrow =>
          rw [hw] at hstep
          dsimp only at hstep
          cases hwd : wrow.delay with
          | none => rw [hwd] at hstep; dsimp only at hstep; exact absurd hstep (by simp)
          | some wd =>
            rw [hwd] at hstep
            dsimp only at hstep
            by_cases hcmp : wd ≤ rdelay.getD 0
            · rw [if_pos hcmp] at hstep
              obtain rfl := Option.some_injective _ hstep
              exact ⟨h1, h2⟩
            · rw [if_neg hcmp] at hstep
              cases rlink with
              | none => simp at hstep
              | some lk =>
                simp only [Option.some.injEq] at hstep
                subst hstep
                have hmem := worstServer_mem hw
                have hws : wrow ∈ s := (List.mem_filter.mp hmem).1
                have hwp : poolPred l0 wrow = true := (List.mem_filter.mp hmem).2
                have hfn : linksNodup (s.filter (fun r => !(r.id == wrow.id))) :=
                  linksNodup_filter _ h1
                refine ⟨linksNodup_upsertPassed lk _ (some l0) now hfn,
                  fun l hl => ?_⟩
                by_cases hll : l = l0
                · subst hll
                  have hb := locCount_upsertPassed_succ
                    (s := s.filter (fun r => !(r.id == wrow.id))) lk
                    (rdelay.getD 0) (some l) now l hfn
                  have hlt := locCount_eraseId_lt hws hwp
                  have hc := h2 l hl
                  omega
                · have hz : locEqSQL (some l0) l = false := by
                    simp [locEqSQL]
                    exact fun he => hll he.symm
                  have hb := locCount_upsertPassed_of_locNe
                    (s := s.filter (fun r => !(r.id == wrow.id))) lk
                    (rdelay.getD 0) (some l0) now l hfn hz
                  have hfl := locCount_filter_le s (fun r => !(r.id == wrow.id)) l
                  have := h2 l hl
                  omega
      · rw [if_neg hcnt] at hstep
        cases rlink with
        | none => simp at hstep
        | some lk =>
          simp only [Option.some.injEq] at hstep
          subst hstep
          refine ⟨linksNodup_upsertPassed lk _ (some l0) now h1, fun l hl => ?_⟩
          by_cases hll : l = l0
          · subst hll
            have hb := locCount_upsertPassed_succ (s := s) lk (rdelay.getD 0)
              (some l) now l h1
            omega
          · have hz : locEqSQL (some l0) l = false := by
              simp [locEqSQL]
              exact fun he => hll he.symm
            have hb := locCount_upsertPassed_of_locNe (s := s) lk
              (rdelay.getD 0) (some l0) now l h1 hz
            have := h2 l hl
            omega

theorem handleFailed_preserves {now : Int} {res : TestResult} {s s' : Store}
    {maxN : Nat} (h1 : linksNodup s)
    (h2 : ∀ l, l ≠ "" → locCount s l ≤ maxN)
    (hstep : handleFailedServer now res s = some s') :
    linksNodup s' ∧ ∀ l, l ≠ "" → locCount s' l ≤ maxN := by
  unfold handleFailedServer at hstep
  cases hlink : res.link with
  | none => rw [hlink] at hstep; exact Option.noConfusion hstep
  | some lk =>
    rw [hlink] at hstep
    obtain rfl := Option.some_injective _ hstep
    refine ⟨linksNodup_upsertFailed lk now h1, fun l hl => ?_⟩
    exact le_trans (locCount_upsertFailed_le s lk now l) (h2 l hl)

theorem saveLatency_preserves {maxN : Nat} {now : Int}
    {results : List TestResult} {s s' : Store} (h1 : linksNodup s)
    (h2 : ∀ l, l ≠ "" → locCount s l ≤ maxN)
    (hs : saveLatencyTestResults maxN now results s = some s') :
    linksNodup s' ∧ ∀ l, l ≠ "" → locCount s' l ≤ maxN := by
  induction results generalizing s with
  | nil =>
    obtain rfl : s = s' := Option.some_injective _ hs
    exact ⟨h1, h2⟩
  | cons a t ih =>
    rw [saveLatencyTestResults, List.foldlM_cons] at hs
    cases hstep : (if a.status == some "passed" then
        handlePassedServer maxN now a s else handleFailedServer now a s) with
    | none => rw [hstep] at hs; exact Option.noConfusion hs
    | some s1 =>
      rw [hstep] at hs
      by_cases hp : (a.status == some "passed") = true
      · rw [if_pos hp] at hstep
        obtain ⟨h1', h2'⟩ := handlePassed_preserves h1 h2 hstep
        exact ih h1' h2' hs
      · rw [if_neg hp] at hstep
        obtain ⟨h1', h2'⟩ := handleFailed_preserves h1 h2 hstep
        exact ih h1' h2' hs

/-- The stored row of claim C1's counterexample: an active candidate whose
location is the empty string. -/
def c1Row : Row :=
  { id := 1, link := "a", status := some "latency_passed", delay := some 100,
    download := none, upload := none, location := some "",
    last_tested := some 0, speed_tested_at := none, retry_count := 0 }

/-- The incoming result of claim C1's counterexample: a passed result whose
location is the empty string. -/
def c1Res : TestResult :=
  { link := some "b", status := some "passed", delay := some 50,
    location := some "", download := none, upload := none }

/-- C1 counterexample. With cap 1 and a store where every location holds at
most 1 active candidate, ingesting one passed result whose location is the
empty string leaves location '' with 2 active candidates: the Python
truthiness test skips the capacity check for an empty-string location even
though the SQL count for location '' does count those rows. -/
theorem c1_emptyLocation_cap_exceeded :
    (∀ l, locCount [c1Row] l ≤ 1) ∧
      (∃ s', saveLatencyTestResults 1 5 [c1Res] [c1Row] = some s' ∧
        1 < locCount s' "") := by
  constructor
  · intro l
    exact le_trans (locCount_le_length [c1Row] l) (by decide)
  · exact ⟨_, rfl, by decide⟩

/-- C1 (corrected). For every non-empty location L, if every non-empty
location of a link-unique store holds at most max_servers_per_location
active (non-failed) candidates, then after save_latency_test_results
commits any batch the count of active candidates in L is still at most
max_servers_per_location. Locations equal to the empty string are exempt:
Python truthiness skips the capacity check for them. -/
theorem saveLatency_cap_nonempty_locations (maxN : Nat) (now : Int)
    (results : List TestResult) (s s' : Store) (h1 : linksNodup s)
    (h2 : ∀ l, l ≠ "" → locCount s l ≤ maxN)
    (hs : saveLatencyTestResults maxN now results s = some s') :
    ∀ l, l ≠ "" → locCount s' l ≤ maxN :=
  (saveLatency_preserves h1 h2 hs).2

/-- Witness for the corrected C1: a one-result batch on the empty store
with cap 1 leaves location US with at most 1 active candidate. -/
theorem saveLatency_cap_witness :
    ∃ s', saveLatencyTestResults 1 0
        [{ link := some "b", status := some "passed", delay := some 50,
           location := some "US", download := none, upload := none }] []
      = some s' ∧ locCount s' "US" ≤ 1 :=
  ⟨_, rfl,
    saveLatency_cap_nonempty_locations 1 0
      [{ link := some "b", status := some "passed", delay := some 50,
         location := some "US", download := none, upload := none }] [] _
      (by simp [linksNodup]) (fun l _ => Nat.zero_le 1) rfl "US" (by decide)⟩

/-! ## Upsert characterization lemmas -/

theorem upsertPassed_keeps_others {s : Store} {lk : String} {nd : Int}
    {loc : Option String} {now : Int} :
    ∀ r ∈ s, r.link ≠ lk → r ∈ upsertPassed s lk nd loc now := by
  intro r hr hne
  unfold upsertPassed
  split
  · refine List.mem_map.mpr ⟨r, hr, ?_⟩
    rw [if_neg (by simpa using hne)]
  · exact List.mem_append_left _ hr

theorem upsertPassed_new_mem (s : Store) (lk : String) (nd : Int)
    (loc : Option String) (now : Int) :
    ∃ r' ∈ upsertPassed s lk nd loc now, r'.link = lk ∧
      r'.status = some "latency_passed" ∧ r'.delay = some nd ∧
      r'.location = loc ∧ r'.last_tested = some now ∧ r'.retry_count = 0 := by
  unfold upsertPassed
  split
  · rename_i hany
    obtain ⟨r, hr, hrl⟩ := List.any_eq_true.mp hany
    refine ⟨_, List.mem_map.mpr ⟨r, hr, rfl⟩, ?_⟩
    rw [if_pos hrl]
    exact ⟨eq_of_beq hrl, rfl, rfl, rfl, rfl, rfl⟩
  · exact ⟨_, List.mem_append_right _ (List.mem_singleton.mpr rfl),
      rfl, rfl, rfl, rfl, rfl, rfl⟩

theorem upsertPassed_sources {s : Store} {lk : String} {nd : Int}
    {loc : Option String} {now : Int} :
    ∀ r' ∈ upsertPassed s lk nd loc now, r' ∈ s ∨
      (r'.link = lk ∧ r'.status = some "latency_passed" ∧
        r'.delay = some nd ∧ r'.location = loc ∧
        r'.last_tested = some now ∧ r'.retry_count = 0) := by
  intro r' hr'
  unfold upsertPassed at hr'
  split at hr'
  · obtain ⟨r, hr, hmap⟩ := List.mem_map.mp hr'
    by_cases hrl : (r.link == lk) = true
    · rw [if_pos hrl] at hmap
      subst hmap
      exact Or.inr ⟨eq_of_beq hrl, rfl, rfl, rfl, rfl, rfl⟩
    · rw [if_neg hrl] at hmap
      subst hmap
      exact Or.inl hr
  · rcases List.mem_append.mp hr' with h | h
    · exact Or.inl h
    · obtain rfl := List.mem_singleton.mp h
      exact Or.inr ⟨rfl, rfl, rfl, rfl, rfl, rfl⟩

theorem upsertFailed_keeps_others {s : Store} {lk : String} {now : Int} :
    ∀ r ∈ s, r.link ≠ lk → r ∈ upsertFailed s lk now := by
  intro r hr hne
  unfold upsertFailed
  split
  · refine List.mem_map.mpr ⟨r, hr, ?_⟩
    rw [if_neg (by simpa using hne)]
  · exact List.mem_append_left _ hr

theorem upsertFailed_increments {s : Store} {lk : String} {now : Int}
    {r0 : Row} (hr0 : r0 ∈ s) (hl : r0.link = lk) :
    ∃ r' ∈ upsertFailed s lk now, r'.link = lk ∧
      r'.retry_count = r0.retry_count + 1 ∧ r'.status = some "failed" ∧
      r'.last_tested = some now ∧ r'.delay = r0.delay ∧
      r'.location = r0.location := by
  unfold upsertFailed
  rw [if_pos (List.any_eq_true.mpr ⟨r0, hr0, by simpa using hl⟩)]
  refine ⟨_, List.mem_map.mpr ⟨r0, hr0, rfl⟩, ?_⟩
  rw [if_pos (by simpa using hl)]
  exact ⟨hl, rfl, rfl, rfl, rfl, rfl⟩

theorem upsertFailed_fresh {s : Store} {lk : String} {now : Int}
    (hno : ∀ r ∈ s, r.link ≠ lk) :
    ∃ r' ∈ upsertFailed s lk now, r'.link = lk ∧ r'.retry_count = 1 ∧
      r'.status = some "failed" ∧ r'.last_tested = some now := by
  unfold upsertFailed
  rw [if_neg (by
    simp only [List.any_eq_true, not_exists]
    intro r
    rw [not_and]
    intro hr
    simpa using hno r hr)]
  exact ⟨_, List.mem_append_right _ (List.mem_singleton.mpr rfl),
    rfl, rfl, rfl, rfl⟩

/-- C3 (confirmed). Retry-count semantics of the three store mutations:
ingesting a failed result sets the stored link's retry_count to its old
value plus exactly one (other rows untouched), and to 1 when the link was
not stored; ingesting a passed result either leaves the store completely
unchanged (eviction-contest discard) or yields a row for the link with
status latency_passed and retry_count reset to 0; save_speed_test_result
leaves every row's retry_count unchanged. -/
theorem retryCount_semantics (maxN : Nat) (now : Int) (res : TestResult)
    (s : Store) (lk : String) (hlk : res.link = some lk) :
    (∀ s', handleFailedServer now res s = some s' →
      ((∀ r ∈ s, r.link ≠ lk → r ∈ s') ∧
       (∀ r0 ∈ s, r0.link = lk → ∃ r' ∈ s', r'.link = lk ∧
         r'.retry_count = r0.retry_count + 1 ∧ r'.status = some "failed" ∧
         r'.last_tested = some now) ∧
       ((∀ r ∈ s, r.link ≠ lk) → ∃ r' ∈ s', r'.link = lk ∧
         r'.retry_count = 1 ∧ r'.status = some "failed" ∧
         r'.last_tested = some now))) ∧
    (∀ s', handlePassedServer maxN now res s = some s' →
      s' = s ∨ ∃ r' ∈ s', r'.link = lk ∧ r'.status = some "latency_passed" ∧
        r'.retry_count = 0) ∧
    (∀ s', saveSpeedTestResult res now s = some s' →
      s'.map Row.retry_count = s.map Row.retry_count) := by
  obtain ⟨rlink, rstatus, rdelay, rloc, rdl, rup⟩ := res
  simp only [TestResult.link] at hlk
  subst hlk
  refine ⟨?_, ?_, ?_⟩
  · intro s' hstep
    simp only [handleFailedServer, Option.some.injEq] at hstep
    subst hstep
    refine ⟨upsertFailed_keeps_others, ?_, fun hno => upsertFailed_fresh hno⟩
    intro r0 hr0 hl
    obtain ⟨r', hm, h1, h2, h3, h4, h5, h6⟩ := upsertFailed_increments hr0 hl
    exact ⟨r', hm, h1, h2, h3, h4⟩
  · intro s' hstep
    cases rloc with
    | none =>
      simp only [handlePassedServer, doPassUpsert, Option.some.injEq] at hstep
      subst hstep
      obtain ⟨r', hm, h1, h2, h3, h4, h5, h6⟩ := upsertPassed_new_mem s lk _ none now
      exact Or.inr ⟨r', hm, h1, h2, h6⟩
    | some l0 =>
      simp only [handlePassedServer, doPassUpsert] at hstep
      by_cases hl0 : l0 = ""
      · rw [if_pos hl0] at hstep
        simp only [Option.some.injEq] at hstep
        subst hstep
        obtain ⟨r', hm, h1, h2, h3, h4, h5, h6⟩ :=
          upsertPassed_new_mem s lk _ (some l0) now
        exact Or.inr ⟨r', hm, h1, h2, h6⟩
      · rw [if_neg hl0] at hstep
        by_cases hcnt : maxN ≤ locCount s l0
        · rw [if_pos hcnt] at hstep
          cases hw : worstServer s l0 with
          | none =>
            rw [hw] at hstep
            dsimp only at hstep
            exact Or.inl (Option.some_injective _ hstep).symm
          | some wrow =>
            rw [hw] at hstep
            dsimp only at hstep
            cases hwd : wrow.delay with
            | none =>
              rw [hwd] at hstep
              exact absurd hstep (by simp)
            | some wd =>
              rw [hwd] at hstep
              dsimp only at hstep
              by_cases hcmp : wd ≤ rdelay.getD 0
              · rw [if_pos hcmp] at hstep
                exact Or.inl (Option.some_injective _ hstep).symm
              · rw [if_neg hcmp] at hstep
                simp only [Option.some.injEq] at hstep
                subst hstep
                obtain ⟨r', hm, h1, h2, h3, h4, h5, h6⟩ :=
                  upsertPassed_new_mem (s.filter (fun r => !(r.id == wrow.id)))
                    lk _ (some l0) now
                exact Or.inr ⟨r', hm, h1, h2, h6⟩
        · rw [if_neg hcnt] at hstep
          simp only [Option.some.injEq] at hstep
          subst hstep
          obtain ⟨r', hm, h1, h2, h3, h4, h5, h6⟩ :=
            upsertPassed_new_mem s lk _ (some l0) now
          exact Or.inr ⟨r', hm, h1, h2, h6⟩
  · intro s' hstep
    simp only [saveSpeedTestResult, Option.some.injEq] at hstep
    subst hstep
    rw [List.map_map]
    apply List.map_congr_left
    intro a _
    by_cases ha : (a.link == lk) = true
    · simp [Function.comp, ha]
    · simp [Function.comp, ha]

/-- Concrete store for the C3 witness: one failed row with retry_count 2. -/
def c3Store : Store :=
  [{ id := 7, link := "g", status := some "failed", delay := none,
     download := none, upload := none, location := none,
     last_tested := some 0, speed_tested_at := none, retry_count := 2 }]

/-- Concrete failed result for the C3 witness. -/
def c3FailRes : TestResult :=
  { link := some "g", status := none, delay := none, location := none,
    download := none, upload := none }

/-- Witness for C3: ingesting a failed result for the stored link g with
retry_count 2 yields a row with retry_count exactly 3. -/
theorem retryCount_witness :
    ∃ s', handleFailedServer 9 c3FailRes c3Store = some s' ∧
      ∃ r' ∈ s', r'.link = "g" ∧ r'.retry_count = 3 := by
  have h := (retryCount_semantics 5 9 c3FailRes c3Store "g" rfl).1
  have h2 := (h (upsertFailed c3Store "g" 9) rfl).2.1
  obtain ⟨r', hm, h1, hrc, h3, h4⟩ :=
    h2 { id := 7, link := "g", status := some "failed", delay := none,
         download := none, upload := none, location := none,
         last_tested := some 0, speed_tested_at := none, retry_count := 2 }
      (by decide) rfl
  exact ⟨_, rfl, r', hm, h1, hrc⟩

/-! ## The location-less pool (claim C10) -/

/-- A candidate without a location: the location column is NULL or the
empty string (both falsy in Python). -/
def noLocPred (r : Row) : Bool :=
  (r.location == none || r.location == some "") && statusNeFailedSQL r.status

/-- Number of active candidates without a location. -/
def noLocCount (s : Store) : Nat := (s.filter noLocPred).length

/-- The i-th pairwise distinct link used to exhibit unbounded growth. -/
def mkLink (i : Nat) : String := String.mk (List.replicate i 'a')

/-- A passed latency result with no location and a fresh link. -/
def mkNoLocRes (i : Nat) : TestResult :=
  { link := some (mkLink i), status := some "passed", delay := some 0,
    location := none, download := none, upload := none }

/-- A batch of n passed, location-less results with links k, k+1, ... -/
def mkNoLocBatch : Nat → Nat → List TestResult
  | _, 0 => []
  | k, n + 1 => mkNoLocRes k :: mkNoLocBatch (k + 1) n

theorem mkLink_length (i : Nat) : (mkLink i).length = i := by
  simp [mkLink, String.length]

theorem mkLink_ne {i j : Nat} (h : i ≠ j) : mkLink i ≠ mkLink j := by
  intro he
  exact h ((mkLink_length i) ▸ (mkLink_length j) ▸ congrArg String.length he)

theorem locEqSQL_eq_some {lo : Option String} {l : String}
    (h : locEqSQL lo l = true) : lo = some l := by
  cases lo with
  | none => exact absurd h (by simp [locEqSQL])
  | some v =>
    rw [locEqSQL] at h
    rw [of_decide_eq_true h]

theorem upsertPassed_link_survives {s : Store} {lk : String} {nd : Int}
    {loc : Option String} {now : Int} :
    ∀ r ∈ s, ∃ r' ∈ upsertPassed s lk nd loc now, r'.link = r.link := by
  intro r hr
  unfold upsertPassed
  split
  · refine ⟨_, List.mem_map.mpr ⟨r, hr, rfl⟩, ?_⟩
    by_cases h : (r.link == lk) = true
    · rw [if_pos h]
    · rw [if_neg h]
  · exact ⟨r, List.mem_append_left _ hr, rfl⟩

theorem upsertFailed_link_survives {s : Store} {lk : String} {now : Int} :
    ∀ r ∈ s, ∃ r' ∈ upsertFailed s lk now, r'.link = r.link := by
  intro r hr
  unfold upsertFailed
  split
  · refine ⟨_, List.mem_map.mpr ⟨r, hr, rfl⟩, ?_⟩
    by_cases h : (r.link == lk) = true
    · rw [if_pos h]
    · rw [if_neg h]
  · exact ⟨r, List.mem_append_left _ hr, rfl⟩

theorem handlePassed_noLoc_survives {maxN : Nat} {now : Int}
    {res : TestResult} {s s' : Store} (hid : idsNodup s)
    (hstep : handlePassedServer maxN now res s = some s') :
    ∀ r ∈ s, (r.location = none ∨ r.location = some "") →
      ∃ r' ∈ s', r'.link = r.link := by
  intro r hr hrloc
  obtain ⟨rlink, rstatus, rdelay, rloc, rdl, rup⟩ := res
  cases rloc with
  | none =>
    cases rlink with
    | none => simp [handlePassedServer, doPassUpsert] at hstep
    | some lk =>
      simp only [handlePassedServer, doPassUpsert, Option.some.injEq] at hstep
      subst hstep
      exact upsertPassed_link_survives r hr
  | some l0 =>
    simp only [handlePassedServer, doPassUpsert] at hstep
    by_cases hl0 : l0 = ""
    · rw [if_pos hl0] at hstep
      cases rlink with
      | none => simp at hstep
      | some lk =>
        simp only [Option.some.injEq] at hstep
        subst hstep
        exact upsertPassed_link_survives r hr
    · rw [if_neg hl0] at hstep
      by_cases hcnt : maxN ≤ locCount s l0
      · rw [if_pos hcnt] at hstep
        cases hw : worstServer s l0 with
        | none =>
          rw [hw] at hstep
          dsimp only at hstep
          obtain rfl := Option.some_injective _ hstep
          exact ⟨r, hr, rfl⟩
        | some wrow =>
          rw [hw] at hstep
          dsimp only at hstep
          cases hwd : wrow.delay with
          | none => rw [hwd] at hstep; exact absurd hstep (by simp)
          | some wd =>
            rw [hwd] at hstep
            dsimp only at hstep
            by_cases hcmp : wd ≤ rdelay.getD 0
            · rw [if_pos hcmp] at hstep
              obtain rfl := Option.some_injective _ hstep
              exact ⟨r, hr, rfl⟩
            · rw [if_neg hcmp] at hstep
              cases rlink with
              | none => simp at hstep
              | some lk =>
                simp only [Option.some.injEq] at hstep
                subst hstep
                have hmem := worstServer_mem hw
                have hws : wrow ∈ s := (List.mem_filter.mp hmem).1
                have hwp : poolPred l0 wrow = true := (List.mem_filter.mp hmem).2
                have hwloc : wrow.location = some l0 :=
                  locEqSQL_eq_some (Bool.and_elim_left hwp)
                have hne : r.id ≠ wrow.id := by
                  intro he
                  have heq : r = wrow := List.inj_on_of_nodup_map hid hr hws he
                  rcases hrloc with h0 | h0 <;>
                    rw [heq, hwloc] at h0 <;> simp at h0
                  exact hl0 h0
                have hrf : r ∈ s.filter (fun x => !(x.id == wrow.id)) :=
                  List.mem_filter.mpr ⟨hr, by simp [hne]⟩
                exact upsertPassed_link_survives r hrf
      · rw [if_neg hcnt] at hstep
        cases rlink with
        | none => simp at hstep
        | some lk =>
          simp only [Option.some.injEq] at hstep
          subst hstep
          exact upsertPassed_link_survives r hr

theorem saveNoLoc_growth :
    ∀ (n k maxN : Nat) (now : Int) (s : Store),
      (∀ r ∈ s, ∀ i, k ≤ i → r.link ≠ mkLink i) →
      ∃ s', saveLatencyTestResults maxN now (mkNoLocBatch k n) s = some s' ∧
        noLocCount s' = noLocCount s + n ∧ s'.length = s.length + n ∧
        (∀ r ∈ s', ∀ i, k + n ≤ i → r.link ≠ mkLink i) := by
  intro n
  induction n with
  | zero =>
    intro k maxN now s hs
    exact ⟨s, rfl, by omega, by omega, fun r hr i hi => hs r hr i (by omega)⟩
  | succ m ih =>
    intro k maxN now s hs
    have hany : (s.any (fun r => r.link == mkLink k)) = false := by
      rw [List.any_eq_false]
      intro r hr
      simpa using hs r hr k le_rfl
    have hup : upsertPassed s (mkLink k) 0 none now = s ++
        [{ id := freshId s, link := mkLink k,
           status := some "latency_passed", delay := some 0,
           download := none, upload := none, location := none,
           last_tested := some now, speed_tested_at := none,
           retry_count := 0 }] := by
      rw [upsertPassed, if_neg (by simp [hany])]
    have hstep : handlePassedServer maxN now (mkNoLocRes k) s =
        some (upsertPassed s (mkLink k) 0 none now) := rfl
    have hs1 : ∀ r ∈ upsertPassed s (mkLink k) 0 none now, ∀ i,
        (k + 1) ≤ i → r.link ≠ mkLink i := by
      rw [hup]
      intro r hr i hi
      rcases List.mem_append.mp hr with h | h
      · exact hs r h i (by omega)
      · obtain rfl := List.mem_singleton.mp h
        exact mkLink_ne (by omega)
    obtain ⟨s', hsave, hcount, hlen, hconstr⟩ :=
      ih (k + 1) maxN now (upsertPassed s (mkLink k) 0 none now) hs1
    have hcnt1 : noLocCount (upsertPassed s (mkLink k) 0 none now) =
        noLocCount s + 1 := by
      rw [hup]
      simp [noLocCount, List.filter_append, noLocPred, statusNeFailedSQL]
    have hlen1 : (upsertPassed s (mkLink k) 0 none now).length =
        s.length + 1 := by
      rw [hup]
      simp
    have hexp : saveLatencyTestResults maxN now (mkNoLocBatch k (m + 1)) s =
        (if (mkNoLocRes k).status == some "passed" then
          handlePassedServer maxN now (mkNoLocRes k) s
         else handleFailedServer now (mkNoLocRes k) s) >>=
          (fun st => saveLatencyTestResults maxN now
            (mkNoLocBatch (k + 1) m) st) := rfl
    refine ⟨s', ?_, by omega, by omega, fun r hr i hi => hconstr r hr i (by omega)⟩
    rw [hexp, if_pos (by rfl), hstep]
    exact hsave

/-- C10 (confirmed). Location-less candidates bypass the capacity policy:
(1) a passed result whose location is NULL or the empty string is handled
by the plain upsert on the whole store - no worst-server query, count or
eviction - so nothing is deleted, the store does not shrink, and the link
is stored with status latency_passed and retry_count 0;
(2) for every n there is a batch of n passed location-less results that
grows the empty store to n active location-less candidates, for any cap;
(3) no single latency ingestion step (passed or failed) ever deletes a
location-less row of an id-unique store: its link is still present after
the step. -/
theorem noLocation_pool_unbounded :
    (∀ (maxN : Nat) (now : Int) (res : TestResult) (s : Store) (lk : String),
      res.link = some lk → (res.location = none ∨ res.location = some "") →
      handlePassedServer maxN now res s =
          some (upsertPassed s lk (res.delay.getD 0) res.location now) ∧
        (∀ r ∈ s, r.link ≠ lk →
          r ∈ upsertPassed s lk (res.delay.getD 0) res.location now) ∧
        s.length ≤ (upsertPassed s lk (res.delay.getD 0) res.location now).length ∧
        (∃ r' ∈ upsertPassed s lk (res.delay.getD 0) res.location now,
          r'.link = lk ∧ r'.status = some "latency_passed" ∧
            r'.retry_count = 0)) ∧
    (∀ (n maxN : Nat) (now : Int),
      ∃ s', saveLatencyTestResults maxN now (mkNoLocBatch 0 n) [] = some s' ∧
        noLocCount s' = n ∧ s'.length = n) ∧
    (∀ (maxN : Nat) (now : Int) (res : TestResult) (s s' : Store),
      idsNodup s →
      (handlePassedServer maxN now res s = some s' ∨
        handleFailedServer now res s = some s') →
      ∀ r ∈ s, (r.location = none ∨ r.location = some "") →
        ∃ r' ∈ s', r'.link = r.link) := by
  refine ⟨?_, ?_, ?_⟩
  · intro maxN now res s lk hlk hloc
    obtain ⟨rlink, rstatus, rdelay, rloc, rdl, rup⟩ := res
    simp only [TestResult.link] at hlk
    subst hlk
    have hlen : ∀ (loc : Option String),
        s.length ≤ (upsertPassed s lk (rdelay.getD 0) loc now).length := by
      intro loc
      unfold upsertPassed
      split
      · rw [List.length_map]
      · rw [List.length_append]
        omega
    rcases hloc with h0 | h0 <;> simp only [TestResult.location] at h0 <;>
      subst h0
    · refine ⟨rfl, fun r hr hne => upsertPassed_keeps_others r hr hne,
        hlen none, ?_⟩
      obtain ⟨r', hm, h1, h2, h3, h4, h5, h6⟩ :=
        upsertPassed_new_mem s lk (rdelay.getD 0) none now
      exact ⟨r', hm, h1, h2, h6⟩
    · refine ⟨rfl, fun r hr hne => upsertPassed_keeps_others r hr hne,
        hlen (some ""), ?_⟩
      obtain ⟨r', hm, h1, h2, h3, h4, h5, h6⟩ :=
        upsertPassed_new_mem s lk (rdelay.getD 0) (some "") now
      exact ⟨r', hm, h1, h2, h6⟩
  · intro n maxN now
    obtain ⟨s', hsave, hcount, hlen, hc⟩ :=
      saveNoLoc_growth n 0 maxN now [] (by simp)
    exact ⟨s', hsave, by simpa [noLocCount] using hcount, by simpa using hlen⟩
  · intro maxN now res s s' hid hstep r hr hrloc
    rcases hstep with hstep | hstep
    · exact handlePassed_noLoc_survives hid hstep r hr hrloc
    · unfold handleFailedServer at hstep
      cases hlink : res.link with
      | none => rw [hlink] at hstep; exact Option.noConfusion hstep
      | some lk =>
        rw [hlink] at hstep
        obtain rfl := Option.some_injective _ hstep
        exact upsertFailed_link_survives r hr

/-! ## The worst-server ordering (claim C2) -/

theorem worstBefore_irrefl (a : Row) : worstBefore a a = false := by
  cases ha : a.delay <;> cases hl : a.last_tested <;>
    simp [worstBefore, delayGt, delayEqSQL, ltstLt, ha, hl]

theorem worstBefore_trans {a b c : Row} (h1 : worstBefore a b = true)
    (h2 : worstBefore b c = true) : worstBefore a c = true := by
  unfold worstBefore delayGt delayEqSQL ltstLt at h1 h2 ⊢
  cases ha : a.delay <;> cases hb : b.delay <;> cases hc : c.delay <;>
    cases la : a.last_tested <;> cases lb : b.last_tested <;>
    cases lc : c.last_tested <;>
    simp_all <;> omega

theorem foldl_choice_maximal (pick : Row → Row → Bool)
    (hirr : ∀ a, pick a a = false)
    (htr : ∀ a b c, pick a b = true → pick b c = true → pick a c = true) :
    ∀ (xs : List Row) (acc : Option Row) (w : Row),
      xs.foldl (fun acc r =>
        match acc with
        | none => some r
        | some v => if pick r v then some r else some v) acc = some w →
      (∀ r ∈ xs, pick r w = false) ∧
        (∀ p, acc = some p → pick p w = false) ∧
        (∀ p, acc = some p → (w = p ∨ pick w p = true)) := by
  intro xs
  induction xs with
  | nil =>
    intro acc w h
    rw [List.foldl_nil] at h
    refine ⟨by simp, ?_, ?_⟩
    · intro p hp
      rw [hp] at h
      have hpw := Option.some_injective _ h
      rw [hpw]
      exact hirr w
    · intro p hp
      rw [hp] at h
      exact Or.inl (Option.some_injective _ h).symm
  | cons x t ih =>
    intro acc w h
    rw [List.foldl_cons] at h
    cases acc with
    | none =>
      simp only at h
      obtain ⟨hall, hacc, hrel⟩ := ih (some x) w h
      refine ⟨?_, fun p hp => Option.noConfusion hp,
        fun p hp => Option.noConfusion hp⟩
      intro r hr
      rcases List.mem_cons.mp hr with rfl | hr
      · exact hacc r rfl
      · exact hall r hr
    | some v =>
      simp only at h
      by_cases hxv : pick x v = true
      · rw [if_pos hxv] at h
        obtain ⟨hall, hacc, hrel⟩ := ih (some x) w h
        refine ⟨?_, ?_, ?_⟩
        · intro r hr
          rcases List.mem_cons.mp hr with rfl | hr
          · exact hacc r rfl
          · exact hall r hr
        · intro p hp
          obtain rfl := Option.some_injective _ hp
          cases hpw : pick v w with
          | false => rfl
          | true =>
            exfalso
            rcases hrel x rfl with rfl | hwx
            · exact absurd (htr v w v hpw hxv) (by simp [hirr v])
            · have hvx := htr v w x hpw hwx
              exact absurd (htr v x v hvx hxv) (by simp [hirr v])
        · intro p hp
          obtain rfl := Option.some_injective _ hp
          rcases hrel x rfl with rfl | hwx
          · exact Or.inr hxv
          · exact Or.inr (htr w x v hwx hxv)
      · rw [if_neg hxv] at h
        obtain ⟨hall, hacc, hrel⟩ := ih (some v) w h
        refine ⟨?_, ?_, ?_⟩
        · intro r hr
          rcases List.mem_cons.mp hr with rfl | hr
          · cases hxw : pick r w with
            | false => rfl
            | true =>
              exfalso
              rcases hrel v rfl with rfl | hwv
              · exact hxv hxw
              · exact hxv (htr r w v hxw hwv)
          · exact hall r hr
        · intro p hp
          obtain rfl := Option.some_injective _ hp
          exact hacc v rfl
        · intro p hp
          obtain rfl := Option.some_injective _ hp
          exact hrel v rfl

theorem worstServer_maximal {s : Store} {l : String} {w : Row}
    (h : worstServer s l = some w) :
    ∀ r ∈ pool s l, worstBefore r w = false := by
  unfold worstServer at h
  exact (foldl_choice_maximal worstBefore worstBefore_irrefl
    (fun a b c => worstBefore_trans) (pool s l) none w h).1

theorem foldl_choice_some (pick : Row → Row → Bool) :
    ∀ (xs : List Row) (v : Row), ∃ w,
      xs.foldl (fun acc r =>
        match acc with
        | none => some r
        | some v => if pick r v then some r else some v) (some v) = some w := by
  intro xs
  induction xs with
  | nil => intro v; exact ⟨v, rfl⟩
  | cons x t ih =>
    intro v
    rw [List.foldl_cons]
    simp only
    by_cases hxv : pick x v = true
    · rw [if_pos hxv]; exact ih x
    · rw [if_neg hxv]; exact ih v

theorem worstServer_isSome {s : Store} {l : String}
    (h : 0 < locCount s l) : ∃ w, worstServer s l = some w := by
  unfold worstServer
  rw [locCount] at h
  cases hp : pool s l with
  | nil => rw [hp] at h; simp at h
  | cons x t =>
    rw [List.foldl_cons]
    simp only
    exact foldl_choice_some worstBefore t x

/-- C2 (confirmed). For a passed result carrying link lk and a truthy
location l whose pool is full (count of non-failed candidates at least the
cap, cap positive): the worst-server query returns a pool member w that no
pool row strictly precedes under ORDER BY delay DESC, last_tested ASC
(maximum delay, ties broken by oldest last_tested); if the new delay is
not strictly below the delay of w, the handler returns the store
unchanged - nothing inserted, deleted or updated and no failure recorded;
if it is strictly below, exactly w is removed, every other row not
carrying lk is kept, and a row for lk with status latency_passed, the new
delay, location l, last_tested now and retry_count 0 is present, every
row of the result being either an original row or that new candidate. -/
theorem evictionContest (maxN : Nat) (now : Int) (res : TestResult)
    (s : Store) (lk l : String) (hlk : res.link = some lk)
    (hst : res.status = some "passed") (hloc : res.location = some l)
    (hl : l ≠ "") (hmax : 0 < maxN) (hfull : maxN ≤ locCount s l)
    (hid : idsNodup s)
    (hwf : ∀ r ∈ s, poolPred l r = true → r.delay ≠ none) :
    ∃ w, worstServer s l = some w ∧ w ∈ pool s l ∧
      (∀ r ∈ pool s l, worstBefore r w = false) ∧
      ∃ wd, w.delay = some wd ∧
        (wd ≤ res.delay.getD 0 →
          handlePassedServer maxN now res s = some s) ∧
        (res.delay.getD 0 < wd →
          ∃ s', handlePassedServer maxN now res s = some s' ∧
            (∀ r ∈ s, r ≠ w → r.link ≠ lk → r ∈ s') ∧
            w ∉ s' ∧
            (∃ r' ∈ s', r'.link = lk ∧ r'.status = some "latency_passed" ∧
              r'.delay = some (res.delay.getD 0) ∧ r'.location = some l ∧
              r'.last_tested = some now ∧ r'.retry_count = 0) ∧
            (∀ r' ∈ s', r' ∈ s ∨
              (r'.link = lk ∧ r'.status = some "latency_passed" ∧
                r'.delay = some (res.delay.getD 0) ∧ r'.location = some l ∧
                r'.last_tested = some now ∧ r'.retry_count = 0))) := by
  obtain ⟨w, hw⟩ := worstServer_isSome (lt_of_lt_of_le hmax hfull)
  have hwmem := worstServer_mem hw
  have hws : w ∈ s := (List.mem_filter.mp hwmem).1
  have hwp : poolPred l w = true := (List.mem_filter.mp hwmem).2
  obtain ⟨wd, hwd⟩ := Option.ne_none_iff_exists'.mp (hwf w hws hwp)
  refine ⟨w, hw, hwmem, worstServer_maximal hw, wd, hwd, ?_, ?_⟩
  all_goals obtain ⟨rlink, rstatus, rdelay, rloc, rdl, rup⟩ := res
  all_goals simp only [TestResult.link] at hlk
  all_goals simp only [TestResult.location] at hloc
  all_goals simp only [TestResult.delay]
  all_goals subst hlk
  all_goals subst hloc
  all_goals simp only [handlePassedServer, doPassUpsert]
  all_goals rw [if_neg hl, if_pos hfull, hw]
  all_goals dsimp only
  all_goals rw [hwd]
  all_goals dsimp only
  · intro hcmp
    rw [if_pos hcmp]
  · intro hcmp
    rw [if_neg (not_le.mpr hcmp)]
    refine ⟨_, rfl, ?_, ?_, ?_, ?_⟩
    · intro r hr hne hnl
      have hneid : r.id ≠ w.id := by
        intro he
        exact hne (List.inj_on_of_nodup_map hid hr hws he)
      exact upsertPassed_keeps_others r
        (List.mem_filter.mpr ⟨hr, by simp [hneid]⟩) hnl
    · intro hcontr
      rcases upsertPassed_sources w hcontr with hmem | hfields
      · have := (List.mem_filter.mp hmem).2
        simp at this
      · rw [hwd] at hfields
        have := hfields.2.2.1
        have hne : ((rdelay.getD 0 : Int)) ≠ wd := ne_of_lt hcmp
        exact hne (Option.some_injective _ this.symm)
    · obtain ⟨r', hm, h1, h2, h3, h4, h5, h6⟩ :=
        upsertPassed_new_mem (s.filter (fun r => !(r.id == w.id))) lk
          (rdelay.getD 0) (some l) now
      exact ⟨r', hm, h1, h2, h3, h4, h5, h6⟩
    · intro r' hr'
      rcases upsertPassed_sources r' hr' with hmem | hfields
      · exact Or.inl (List.mem_filter.mp hmem).1
      · exact Or.inr hfields

/-- Row A of the C2 witness store (delay 100 in location US). -/
def c2RowA : Row :=
  { id := 1, link := "A", status := some "latency_passed", delay := some 100,
    download := none, upload := none, location := some "US",
    last_tested := some 10, speed_tested_at := none, retry_count := 0 }

/-- Row B of the C2 witness store (delay 150 in location US, the worst). -/
def c2RowB : Row :=
  { id := 2, link := "B", status := some "latency_passed", delay := some 150,
    download := none, upload := none, location := some "US",
    last_tested := some 11, speed_tested_at := none, retry_count := 0 }

/-- The C2 witness store: location US full at cap 2. -/
def c2Store : Store := [c2RowA, c2RowB]

/-- The C2 witness result: link C passes with delay 120 in US. -/
def c2Res : TestResult :=
  { link := some "C", status := some "passed", delay := some 120,
    location := some "US", download := none, upload := none }

/-- Witness for C2: with US full at cap 2 and worst delay 150, ingesting
link C at delay 120 evicts exactly row B and stores C as latency_passed
with delay 120. -/
theorem evictionContest_witness :
    ∃ s', handlePassedServer 2 99 c2Res c2Store = some s' ∧
      c2RowB ∉ s' ∧ c2RowA ∈ s' ∧
      ∃ r' ∈ s', r'.link = "C" ∧ r'.status = some "latency_passed" ∧
        r'.delay = some 120 := by
  obtain ⟨w, hw, hmem, hmaximal, wd, hwd, hge, hlt⟩ :=
    evictionContest 2 99 c2Res c2Store "C" "US" rfl rfl rfl (by decide)
      (by decide) (by decide) (by unfold idsNodup; decide) (by decide)
  have hwB : w = c2RowB := by
    have he : worstServer c2Store "US" = some c2RowB := by decide
    exact Option.some_injective _ (hw.symm.trans he)
  subst hwB
  have hwd' : wd = 150 := by
    have hb : c2RowB.delay = some 150 := rfl
    exact Option.some_injective _ (hwd.symm.trans hb)
  subst hwd'
  obtain ⟨s', hs', hkeep, hnotin, hnew, hsrc⟩ := hlt (by decide)
  obtain ⟨r', hm, h1, h2, h3, h4, h5, h6⟩ := hnew
  exact ⟨s', hs', hnotin, hkeep c2RowA (by decide) (by decide) (by decide),
    r', hm, h1, h2, h3⟩

/-! ## Speed selection (claim C6) -/

theorem resultsMapLookup_spec {results : List TestResult} {lk : String}
    {res : TestResult} (h : resultsMapLookup results lk = some res) :
    res ∈ results ∧ res.status = some "passed" ∧ res.link = some lk := by
  have hm : res ∈ results.filter
      (fun r => r.status == some "passed" && r.link == some lk) :=
    List.mem_of_mem_getLast? h
  obtain ⟨h1, h2⟩ := List.mem_filter.mp hm
  rw [Bool.and_eq_true] at h2
  exact ⟨h1, eq_of_beq h2.1, eq_of_beq h2.2⟩

theorem bestFold_spec (minMbps : Rat) (results : List TestResult) :
    ∀ (cands : List String) (acc : Option TestResult) (b : TestResult),
      cands.foldl (fun best lk =>
        match resultsMapLookup results lk with
        | none => best
        | some result =>
          if result.download.getD 0 < minMbps then best
          else
            match best with
            | none => some result
            | some b0 =>
              if b0.download.getD 0 < result.download.getD 0 then some result
              else best) acc = some b →
      (acc = some b ∨
        (minMbps ≤ b.download.getD 0 ∧
          ∃ lk ∈ cands, resultsMapLookup results lk = some b)) ∧
      (∀ lk ∈ cands, ∀ res, resultsMapLookup results lk = some res →
        minMbps ≤ res.download.getD 0 →
        res.download.getD 0 ≤ b.download.getD 0) ∧
      (∀ a0, acc = some a0 → a0.download.getD 0 ≤ b.download.getD 0) := by
  intro cands
  induction cands with
  | nil =>
    intro acc b h
    rw [List.foldl_nil] at h
    refine ⟨Or.inl h, by simp, ?_⟩
    intro a0 ha0
    rw [ha0] at h
    obtain rfl := Option.some_injective _ h
    exact le_refl _
  | cons lk t ih =>
    intro acc b h
    rw [List.foldl_cons] at h
    cases hl : resultsMapLookup results lk with
    | none =>
      rw [hl] at h
      dsimp only at h
      obtain ⟨hp1, hp2, hp3⟩ := ih acc b h
      refine ⟨?_, ?_, hp3⟩
      · rcases hp1 with h' | ⟨hq, lk', hlk', hres⟩
        · exact Or.inl h'
        · exact Or.inr ⟨hq, lk', List.mem_cons_of_mem _ hlk', hres⟩
      · intro lk' hlk' res hres hq
        rcases List.mem_cons.mp hlk' with rfl | hlk'
        · rw [hl] at hres; exact Option.noConfusion hres
        · exact hp2 lk' hlk' res hres hq
    | some result =>
      rw [hl] at h
      dsimp only at h
      by_cases hthr : result.download.getD 0 < minMbps
      · rw [if_pos hthr] at h
        obtain ⟨hp1, hp2, hp3⟩ := ih acc b h
        refine ⟨?_, ?_, hp3⟩
        · rcases hp1 with h' | ⟨hq, lk', hlk', hres⟩
          · exact Or.inl h'
          · exact Or.inr ⟨hq, lk', List.mem_cons_of_mem _ hlk', hres⟩
        · intro lk' hlk' res hres hq
          rcases List.mem_cons.mp hlk' with rfl | hlk'
          · rw [hl] at hres
            obtain rfl := Option.some_injective _ hres
            exact absurd hq (not_le.mpr hthr)
          · exact hp2 lk' hlk' res hres hq
      · rw [if_neg hthr] at h
        cases acc with
        | none =>
          dsimp only at h
          obtain ⟨hp1, hp2, hp3⟩ := ih (some result) b h
          refine ⟨?_, ?_, ?_⟩
          · rcases hp1 with h' | ⟨hq, lk', hlk', hres⟩
            · exact Or.inr ⟨(Option.some_injective _ h') ▸ not_lt.mp hthr,
                lk, List.mem_cons_self lk t,
                (Option.some_injective _ h') ▸ hl⟩
            · exact Or.inr ⟨hq, lk', List.mem_cons_of_mem _ hlk', hres⟩
          · intro lk' hlk' res hres hq
            rcases List.mem_cons.mp hlk' with rfl | hlk'
            · rw [hl] at hres
              obtain rfl := Option.some_injective _ hres
              exact hp3 result rfl
            · exact hp2 lk' hlk' res hres hq
          · intro a0 ha0
            exact Option.noConfusion ha0
        | some b0 =>
          dsimp only at h
          by_cases hcmp : b0.download.getD 0 < result.download.getD 0
          · rw [if_pos hcmp] at h
            obtain ⟨hp1, hp2, hp3⟩ := ih (some result) b h
            refine ⟨?_, ?_, ?_⟩
            · rcases hp1 with h' | ⟨hq, lk', hlk', hres⟩
              · exact Or.inr ⟨(Option.some_injective _ h') ▸ not_lt.mp hthr,
                  lk, List.mem_cons_self lk t,
                  (Option.some_injective _ h') ▸ hl⟩
              · exact Or.inr ⟨hq, lk', List.mem_cons_of_mem _ hlk', hres⟩
            · intro lk' hlk' res hres hq
              rcases List.mem_cons.mp hlk' with rfl | hlk'
              · rw [hl] at hres
                obtain rfl := Option.some_injective _ hres
                exact hp3 result rfl
              · exact hp2 lk' hlk' res hres hq
            · intro a0 ha0
              obtain rfl : b0 = a0 := Option.some_injective _ ha0
              exact le_trans (le_of_lt hcmp) (hp3 result rfl)
          · rw [if_neg hcmp] at h
            obtain ⟨hp1, hp2, hp3⟩ := ih (some b0) b h
            refine ⟨?_, ?_, ?_⟩
            · rcases hp1 with h' | ⟨hq, lk', hlk', hres⟩
              · exact Or.inl h'
              · exact Or.inr ⟨hq, lk', List.mem_cons_of_mem _ hlk', hres⟩
            · intro lk' hlk' res hres hq
              rcases List.mem_cons.mp hlk' with rfl | hlk'
              · rw [hl] at hres
                obtain rfl := Option.some_injective _ hres
                exact le_trans (not_lt.mp hcmp) (hp3 b0 rfl)
              · exact hp2 lk' hlk' res hres hq
            · intro a0 ha0
              obtain rfl : b0 = a0 := Option.some_injective _ ha0
              exact hp3 b0 rfl

theorem bestFold_none (minMbps : Rat) (results : List TestResult) :
    ∀ (cands : List String) (acc : Option TestResult),
      (∀ lk ∈ cands, ∀ res, resultsMapLookup results lk = some res →
        res.download.getD 0 < minMbps) →
      cands.foldl (fun best lk =>
        match resultsMapLookup results lk with
        | none => best
        | some result =>
          if result.download.getD 0 < minMbps then best
          else
            match best with
            | none => some result
            | some b0 =>
              if b0.download.getD 0 < result.download.getD 0 then some result
              else best) acc = acc := by
  intro cands
  induction cands with
  | nil => intro acc _; rfl
  | cons lk t ih =>
    intro acc hall
    rw [List.foldl_cons]
    cases hl : resultsMapLookup results lk with
    | none =>
      dsimp only
      exact ih acc (fun lk' hlk' => hall lk' (List.mem_cons_of_mem _ hlk'))
    | some result =>
      dsimp only
      rw [if_pos (hall lk (List.mem_cons_self lk t) result hl)]
      exact ih acc (fun lk' hlk' => hall lk' (List.mem_cons_of_mem _ hlk'))

/-- C6 (confirmed). In the speed-selection reduction:
(1) every candidate link of a location that carries a passed measurement in
results_map is handed to save_speed_test_result (it appears in the list of
issued save calls), and that result indeed is a passed row for that link;
(2) save_speed_test_result persists the download and upload metrics of the
row for the link, setting status speed_passed and touching no other row;
(3) a selected best candidate meets the download threshold and has the
maximum download among the threshold-meeting candidates of its location;
(4) when no candidate of the location meets the threshold (in particular
for every candidate below a nonzero threshold) none is selected;
(5) every entry of best_servers comes from a location whose bestForLoc
selected it. -/
theorem speedSelection_spec (minMbps : Rat) (results : List TestResult)
    (cands : List String) :
    (∀ lk ∈ cands, ∀ res, resultsMapLookup results lk = some res →
      res ∈ savedSpeedResults results cands ∧ res.link = some lk ∧
        res.status = some "passed") ∧
    (∀ (res : TestResult) (now : Int) (s s' : Store),
      saveSpeedTestResult res now s = some s' →
      ∀ lk, res.link = some lk → ∀ r ∈ s,
        (r.link = lk → ({ r with
            status := some "speed_passed",
            download := some (res.download.getD 0),
            upload := some (res.upload.getD 0),
            speed_tested_at := some now } : Row) ∈ s') ∧
        (r.link ≠ lk → r ∈ s')) ∧
    (∀ b, bestForLoc minMbps results cands = some b →
      minMbps ≤ b.download.getD 0 ∧
        (∃ lk ∈ cands, resultsMapLookup results lk = some b) ∧
        (∀ lk ∈ cands, ∀ res, resultsMapLookup results lk = some res →
          minMbps ≤ res.download.getD 0 →
          res.download.getD 0 ≤ b.download.getD 0)) ∧
    ((∀ lk ∈ cands, ∀ res, resultsMapLookup results lk = some res →
        res.download.getD 0 < minMbps) →
      bestForLoc minMbps results cands = none) ∧
    (∀ (locs : List (String × List String)),
      ∀ q ∈ bestServers minMbps results locs,
        ∃ cds b, (q.1, cds) ∈ locs ∧
          bestForLoc minMbps results cds = some b ∧ q.2 = b.link) := by
  refine ⟨?_, ?_, ?_, ?_, ?_⟩
  · intro lk hlk res hres
    obtain ⟨h1, h2, h3⟩ := resultsMapLookup_spec hres
    exact ⟨List.mem_filterMap.mpr ⟨lk, hlk, hres⟩, h3, h2⟩
  · intro res now s s' hsave lk hlk r hr
    rw [saveSpeedTestResult, hlk] at hsave
    obtain rfl := Option.some_injective _ hsave
    constructor
    · intro hrl
      refine List.mem_map.mpr ⟨r, hr, ?_⟩
      rw [if_pos (by simpa using hrl)]
    · intro hrl
      refine List.mem_map.mpr ⟨r, hr, ?_⟩
      rw [if_neg (by simpa using hrl)]
  · intro b hb
    rw [bestForLoc] at hb
    obtain ⟨hp1, hp2, hp3⟩ := bestFold_spec minMbps results cands none b hb
    rcases hp1 with h' | ⟨hq, lk, hlk, hres⟩
    · exact Option.noConfusion h'
    · exact ⟨hq, ⟨lk, hlk, hres⟩, hp2⟩
  · intro hall
    rw [bestForLoc]
    exact bestFold_none minMbps results cands none hall
  · intro locs q hq
    obtain ⟨p, hp, hg⟩ := List.mem_filterMap.mp hq
    cases hbest : bestForLoc minMbps results p.2 with
    | none => rw [hbest] at hg; exact Option.noConfusion hg
    | some b =>
      rw [hbest] at hg
      obtain rfl := Option.some_injective _ hg
      exact ⟨p.2, b, by simpa using hp, hbest, rfl⟩

/-- Results of the C6 witness: downloads 5, 9 and 3 on links a, b, c. -/
def c6Results : List TestResult :=
  [{ link := some "a", status := some "passed", delay := none,
     location := none, download := some 5, upload := none },
   { link := some "b", status := some "passed", delay := none,
     location := none, download := some 9, upload := none },
   { link := some "c", status := some "passed", delay := none,
     location := none, download := some 3, upload := none }]

/-- The candidate the C6 witness selects: link b with download 9. -/
def c6Best : TestResult :=
  { link := some "b", status := some "passed", delay := none,
    location := none, download := some 9, upload := none }

/-- Witness for C6: with threshold 6 only the download-9 candidate
qualifies and is selected; its download meets the threshold. -/
theorem speedSelection_witness :
    ∃ b, bestForLoc 6 c6Results ["a", "b", "c"] = some b ∧
      (6 : Rat) ≤ b.download.getD 0 ∧ b.link = some "b" := by
  have h := (speedSelection_spec 6 c6Results ["a", "b", "c"]).2.2.1
  cases hb : bestForLoc 6 c6Results ["a", "b", "c"] with
  | none => exact absurd hb (by decide)
  | some b =>
    obtain ⟨hq, hprov, hmax⟩ := h b hb
    refine ⟨b, rfl, hq, ?_⟩
    obtain rfl : b = c6Best := by
      have hc : bestForLoc 6 c6Results ["a", "b", "c"] = some c6Best := by
        decide
      exact Option.some_injective _ (hb.symm.trans hc)
    rfl

/-! ## Proxy candidate ranking (claim C7) -/

theorem mem_insertRanked (le : Row → Row → Bool) (r a : Row) :
    ∀ (l : List Row), a ∈ insertRanked le r l ↔ a = r ∨ a ∈ l := by
  intro l
  induction l with
  | nil => simp [insertRanked]
  | cons x xs ih =>
    rw [insertRanked]
    split
    · simp
    · rw [List.mem_cons, ih, List.mem_cons]
      tauto

theorem length_insertRanked (le : Row → Row → Bool) (r : Row) :
    ∀ (l : List Row), (insertRanked le r l).length = l.length + 1 := by
  intro l
  induction l with
  | nil => rfl
  | cons x xs ih =>
    rw [insertRanked]
    split
    · rfl
    · rw [List.length_cons, ih]
      rfl

theorem length_rankSort (le : Row → Row → Bool) :
    ∀ (l : List Row), (rankSort le l).length = l.length := by
  intro l
  induction l with
  | nil => rfl
  | cons x xs ih =>
    rw [rankSort, length_insertRanked, ih]
    rfl

theorem mem_rankSort (le : Row → Row → Bool) (a : Row) :
    ∀ (l : List Row), a ∈ rankSort le l ↔ a ∈ l := by
  intro l
  induction l with
  | nil => simp [rankSort]
  | cons x xs ih =>
    rw [rankSort, mem_insertRanked, ih, List.mem_cons]

theorem pairwise_insertRanked (le : Row → Row → Bool)
    (htot : ∀ a b, (le a b || le b a) = true)
    (htr : ∀ a b c, le a b = true → le b c = true → le a c = true)
    (r : Row) :
    ∀ (l : List Row), l.Pairwise (fun a b => le a b = true) →
      (insertRanked le r l).Pairwise (fun a b => le a b = true) := by
  intro l
  induction l with
  | nil => intro _; simp [insertRanked]
  | cons x xs ih =>
    intro hp
    obtain ⟨hx, hxs⟩ := List.pairwise_cons.mp hp
    rw [insertRanked]
    split
    · rename_i hrx
      rw [List.pairwise_cons]
      refine ⟨?_, hp⟩
      intro b hb
      rcases List.mem_cons.mp hb with rfl | hb
      · exact hrx
      · exact htr r x b hrx (hx b hb)
    · rename_i hrx
      have hxr : le x r = true := by
        rcases Bool.or_eq_true_iff.mp (htot r x) with h | h
        · exact absurd h hrx
        · exact h
      rw [List.pairwise_cons]
      refine ⟨?_, ih hxs⟩
      intro b hb
      rcases (mem_insertRanked le r b xs).mp hb with rfl | hb
      · exact hxr
      · exact hx b hb

theorem pairwise_rankSort (le : Row → Row → Bool)
    (htot : ∀ a b, (le a b || le b a) = true)
    (htr : ∀ a b c, le a b = true → le b c = true → le a c = true) :
    ∀ (l : List Row),
      (rankSort le l).Pairwise (fun a b => le a b = true) := by
  intro l
  induction l with
  | nil => simp [rankSort]
  | cons x xs ih =>
    rw [rankSort]
    exact pairwise_insertRanked le htot htr x (rankSort le xs) ih

theorem optGtB_irrefl {γ : Type} [LinearOrder γ] (a : Option γ) :
    optGtB a a = false := by
  cases a <;> simp [optGtB]

theorem optGtB_asymm {γ : Type} [LinearOrder γ] {a b : Option γ}
    (h1 : optGtB a b = true) (h2 : optGtB b a = true) : False := by
  cases a <;> cases b <;> simp [optGtB] at h1 h2
  exact absurd (h1.trans h2) (lt_irrefl _)

theorem optGtB_trans {γ : Type} [LinearOrder γ] {a b c : Option γ}
    (h1 : optGtB a b = true) (h2 : optGtB b c = true) :
    optGtB a c = true := by
  cases a <;> cases b <;> cases c <;> simp_all [optGtB]
  exact h2.trans h1

theorem optGtB_trichot {γ : Type} [LinearOrder γ] (a b : Option γ) :
    optGtB a b = true ∨ a = b ∨ optGtB b a = true := by
  cases a with
  | none =>
    cases b with
    | none => exact Or.inr (Or.inl rfl)
    | some y => exact Or.inr (Or.inr (by simp [optGtB]))
  | some x =>
    cases b with
    | none => exact Or.inl (by simp [optGtB])
    | some y =>
      rcases lt_trichotomy x y with h | h | h
      · exact Or.inr (Or.inr (by simp [optGtB, h]))
      · exact Or.inr (Or.inl (by rw [h]))
      · exact Or.inl (by simp [optGtB, h])

theorem optLtB_irrefl {γ : Type} [LinearOrder γ] (a : Option γ) :
    optLtB a a = false := by
  cases a <;> simp [optLtB]

theorem optLtB_asymm {γ : Type} [LinearOrder γ] {a b : Option γ}
    (h1 : optLtB a b = true) (h2 : optLtB b a = true) : False := by
  cases a <;> cases b <;> simp [optLtB] at h1 h2
  exact absurd (h1.trans h2) (lt_irrefl _)

theorem optLtB_trans {γ : Type} [LinearOrder γ] {a b c : Option γ}
    (h1 : optLtB a b = true) (h2 : optLtB b c = true) :
    optLtB a c = true := by
  cases a <;> cases b <;> cases c <;> simp_all [optLtB]
  exact h1.trans h2

theorem optLtB_trichot {γ : Type} [LinearOrder γ] (a b : Option γ) :
    optLtB a b = true ∨ a = b ∨ optLtB b a = true := by
  cases a with
  | none =>
    cases b with
    | none => exact Or.inr (Or.inl rfl)
    | some y => exact Or.inr (Or.inr (by simp [optLtB]))
  | some x =>
    cases b with
    | none => exact Or.inl (by simp [optLtB])
    | some y =>
      rcases lt_trichotomy x y with h | h | h
      · exact Or.inl (by simp [optLtB, h])
      · exact Or.inr (Or.inl (by rw [h]))
      · exact Or.inr (Or.inr (by simp [optLtB, h]))

theorem speedBefore_asymm {a b : Row} (h1 : speedBefore a b = true)
    (h2 : speedBefore b a = true) : False := by
  simp only [speedBefore, Bool.or_eq_true, Bool.and_eq_true,
    beq_iff_eq] at h1 h2
  rcases h1 with h1 | ⟨he1, h1⟩ <;> rcases h2 with h2 | ⟨he2, h2⟩
  · exact optGtB_asymm h1 h2
  · rw [he2] at h1
    exact absurd h1 (by simp [optGtB_irrefl])
  · rw [he1] at h2
    exact absurd h2 (by simp [optGtB_irrefl])
  · exact optGtB_asymm h1 h2

theorem speedBefore_connected {a b c : Row} (h : speedBefore c a = true) :
    speedBefore c b = true ∨ speedBefore b a = true := by
  simp only [speedBefore, Bool.or_eq_true, Bool.and_eq_true, beq_iff_eq]
    at h ⊢
  rcases h with h | ⟨he, h⟩
  · rcases optGtB_trichot c.download b.download with h1 | h1 | h1
    · exact Or.inl (Or.inl h1)
    · exact Or.inr (Or.inl (h1 ▸ h))
    · exact Or.inr (Or.inl (optGtB_trans h1 h))
  · rcases optGtB_trichot c.download b.download with h1 | h1 | h1
    · exact Or.inl (Or.inl h1)
    · rcases optGtB_trichot c.speed_tested_at b.speed_tested_at
        with h2 | h2 | h2
      · exact Or.inl (Or.inr ⟨h1, h2⟩)
      · exact Or.inr (Or.inr ⟨h1 ▸ he, h2 ▸ h⟩)
      · exact Or.inr (Or.inr ⟨h1 ▸ he, optGtB_trans h2 h⟩)
    · exact Or.inr (Or.inl (he ▸ h1))

theorem speedLe_total (a b : Row) : (speedLe a b || speedLe b a) = true := by
  unfold speedLe
  cases h1 : speedBefore b a <;> cases h2 : speedBefore a b <;> simp
  exact speedBefore_asymm h2 h1

theorem speedLe_trans (a b c : Row) (h1 : speedLe a b = true)
    (h2 : speedLe b c = true) : speedLe a c = true := by
  unfold speedLe at h1 h2 ⊢
  cases hca : speedBefore c a with
  | false => simp
  | true =>
    rcases speedBefore_connected hca with h | h
    · rw [h] at h2; simp at h2
    · rw [h] at h1; simp at h1

theorem latencyBefore_asymm {a b : Row} (h1 : latencyBefore a b = true)
    (h2 : latencyBefore b a = true) : False := by
  simp only [latencyBefore, Bool.or_eq_true, Bool.and_eq_true,
    beq_iff_eq] at h1 h2
  rcases h1 with h1 | ⟨he1, h1⟩ <;> rcases h2 with h2 | ⟨he2, h2⟩
  · exact optLtB_asymm h1 h2
  · rw [he2] at h1
    exact absurd h1 (by simp [optLtB_irrefl])
  · rw [he1] at h2
    exact absurd h2 (by simp [optLtB_irrefl])
  · exact optGtB_asymm h1 h2

theorem latencyBefore_connected {a b c : Row}
    (h : latencyBefore c a = true) :
    latencyBefore c b = true ∨ latencyBefore b a = true := by
  simp only [latencyBefore, Bool.or_eq_true, Bool.and_eq_true, beq_iff_eq]
    at h ⊢
  rcases h with h | ⟨he, h⟩
  · rcases optLtB_trichot c.delay b.delay with h1 | h1 | h1
    · exact Or.inl (Or.inl h1)
    · exact Or.inr (Or.inl (h1 ▸ h))
    · exact Or.inr (Or.inl (optLtB_trans h1 h))
  · rcases optLtB_trichot c.delay b.delay with h1 | h1 | h1
    · exact Or.inl (Or.inl h1)
    · rcases optGtB_trichot c.last_tested b.last_tested with h2 | h2 | h2
      · exact Or.inl (Or.inr ⟨h1, h2⟩)
      · exact Or.inr (Or.inr ⟨h1 ▸ he, h2 ▸ h⟩)
      · exact Or.inr (Or.inr ⟨h1 ▸ he, optGtB_trans h2 h⟩)
    · exact Or.inr (Or.inl (he ▸ h1))

theorem latencyLe_total (a b : Row) :
    (latencyLe a b || latencyLe b a) = true := by
  unfold latencyLe
  cases h1 : latencyBefore b a <;> cases h2 : latencyBefore a b <;> simp
  exact latencyBefore_asymm h2 h1

theorem latencyLe_trans (a b c : Row) (h1 : latencyLe a b = true)
    (h2 : latencyLe b c = true) : latencyLe a c = true := by
  unfold latencyLe at h1 h2 ⊢
  cases hca : latencyBefore c a with
  | false => simp
  | true =>
    rcases latencyBefore_connected hca with h | h
    · rw [h] at h2; simp at h2
    · rw [h] at h1; simp at h1

theorem take_map_length_le (maxLinks : Nat) (l : List Row) :
    ((l.take maxLinks).map Row.link).length ≤ maxLinks := by
  rw [List.length_map, List.length_take]
  exact min_le_left _ _

theorem getProxyCandidates_speed_eq (maxLinks : Nat) (s : Store) :
    getProxyCandidates "speed_passed" maxLinks s =
      if (((speedRanked s).take maxLinks).map Row.link) ≠ [] then
        ((speedRanked s).take maxLinks).map Row.link
      else ((latencyRanked s).take maxLinks).map Row.link := by
  unfold getProxyCandidates
  rw [if_pos rfl]

/-- C7 (confirmed). For every store and positive max_links:
(1) get_proxy_candidates returns at most max_links links for any selector;
(2) when speed_passed rows exist, the speed_passed selector returns the
links of rows of the store with status speed_passed, pairwise ordered by
download descending with ties broken by speed_tested_at descending (NULLs
last), exactly min(max_links, number of such rows) of them;
(3) when no speed_passed row exists it returns the latency_passed ranking
(delay ascending, ties by last_tested descending, NULLs last) limited to
max_links;
(4) the result is empty exactly when the store has neither a speed_passed
nor a latency_passed row. -/
theorem proxyCandidates_spec (s : Store) (maxLinks : Nat)
    (hpos : 0 < maxLinks) :
    (∀ sel, (getProxyCandidates sel maxLinks s).length ≤ maxLinks) ∧
    ((s.filter (fun r => r.status == some "speed_passed")) ≠ [] →
      ∃ rows : List Row, getProxyCandidates "speed_passed" maxLinks s =
          rows.map Row.link ∧
        rows.Pairwise (fun a b => speedLe a b = true) ∧
        (∀ r ∈ rows, r ∈ s ∧ r.status = some "speed_passed") ∧
        rows.length = min maxLinks
          (s.filter (fun r => r.status == some "speed_passed")).length) ∧
    ((s.filter (fun r => r.status == some "speed_passed")) = [] →
      ∃ rows : List Row, getProxyCandidates "speed_passed" maxLinks s =
          rows.map Row.link ∧
        rows = (latencyRanked s).take maxLinks ∧
        rows.Pairwise (fun a b => latencyLe a b = true) ∧
        (∀ r ∈ rows, r ∈ s ∧ r.status = some "latency_passed") ∧
        rows.length = min maxLinks
          (s.filter (fun r => r.status == some "latency_passed")).length) ∧
    (getProxyCandidates "speed_passed" maxLinks s = [] ↔
      (∀ r ∈ s, r.status ≠ some "speed_passed") ∧
      (∀ r ∈ s, r.status ≠ some "latency_passed")) := by
  have hsrlen : (speedRanked s).length =
      (s.filter (fun r => r.status == some "speed_passed")).length :=
    length_rankSort _ _
  have hlrlen : (latencyRanked s).length =
      (s.filter (fun r => r.status == some "latency_passed")).length :=
    length_rankSort _ _
  refine ⟨?_, ?_, ?_, ?_⟩
  · intro sel
    by_cases hsel : sel = "speed_passed"
    · subst hsel
      rw [getProxyCandidates_speed_eq]
      split
      · exact take_map_length_le maxLinks _
      · exact take_map_length_le maxLinks _
    · have hfb : getProxyCandidates sel maxLinks s =
          ((latencyRanked s).take maxLinks).map Row.link := by
        unfold getProxyCandidates
        rw [if_neg hsel]
        simp
      rw [hfb]
      exact take_map_length_le maxLinks _
  · intro hne
    refine ⟨(speedRanked s).take maxLinks, ?_, ?_, ?_, ?_⟩
    · rw [getProxyCandidates_speed_eq]
      rw [if_pos ?_]
      have hlen : 0 < ((speedRanked s).take maxLinks).length := by
        rw [List.length_take, hsrlen]
        have := List.length_pos.mpr hne
        omega
      intro hcontr
      rw [← List.length_eq_zero] at hcontr
      rw [List.length_map] at hcontr
      omega
    · exact List.Pairwise.sublist (List.take_sublist _ _)
        (pairwise_rankSort speedLe speedLe_total speedLe_trans _)
    · intro r hr
      have hr1 : r ∈ speedRanked s := (List.take_sublist _ _).subset hr
      rw [speedRanked, mem_rankSort] at hr1
      obtain ⟨h1, h2⟩ := List.mem_filter.mp hr1
      exact ⟨h1, eq_of_beq h2⟩
    · rw [List.length_take, hsrlen]
  · intro hemp
    have hsr : speedRanked s = [] := by rw [speedRanked, hemp]; rfl
    refine ⟨(latencyRanked s).take maxLinks, ?_, rfl, ?_, ?_, ?_⟩
    · rw [getProxyCandidates_speed_eq, hsr]
      simp
    · exact List.Pairwise.sublist (List.take_sublist _ _)
        (pairwise_rankSort latencyLe latencyLe_total latencyLe_trans _)
    · intro r hr
      have hr1 : r ∈ latencyRanked s := (List.take_sublist _ _).subset hr
      rw [latencyRanked, mem_rankSort] at hr1
      obtain ⟨h1, h2⟩ := List.mem_filter.mp hr1
      exact ⟨h1, eq_of_beq h2⟩
    · rw [List.length_take, hlrlen]
  · constructor
    · intro hout
      by_cases hsp : (s.filter (fun r => r.status == some "speed_passed")) = []
      · have hsr : speedRanked s = [] := by rw [speedRanked, hsp]; rfl
        rw [getProxyCandidates_speed_eq, hsr] at hout
        simp only [List.take_nil, List.map_nil, ne_eq,
          not_true_eq_false, if_false] at hout
        rw [List.map_eq_nil_iff] at hout
        rcases List.take_eq_nil_iff.mp hout with h0 | h0
        · omega
        · have hlf : (s.filter (fun r => r.status == some "latency_passed"))
              = [] := by
            have := congrArg List.length h0
            rw [hlrlen] at this
            exact List.length_eq_zero.mp this
          constructor
          · intro r hr hst
            have := List.filter_eq_nil_iff.mp hsp r hr
            simp [hst] at this
          · intro r hr hst
            have := List.filter_eq_nil_iff.mp hlf r hr
            simp [hst] at this
      · exfalso
        have hlen : 0 < ((speedRanked s).take maxLinks).length := by
          rw [List.length_take, hsrlen]
          have := List.length_pos.mpr hsp
          omega
        rw [getProxyCandidates_speed_eq] at hout
        rw [if_pos ?_] at hout
        · rw [← List.length_eq_zero, List.length_map] at hout
          omega
        · intro hcontr
          rw [← List.length_eq_zero, List.length_map] at hcontr
          omega
    · rintro ⟨hns, hnl⟩
      have hsp : (s.filter (fun r => r.status == some "speed_passed")) = [] := by
        rw [List.filter_eq_nil_iff]
        intro r hr
        simp [hns r hr]
      have hlf : (s.filter (fun r => r.status == some "latency_passed")) = [] := by
        rw [List.filter_eq_nil_iff]
        intro r hr
        simp [hnl r hr]
      have hsr : speedRanked s = [] := by rw [speedRanked, hsp]; rfl
      have hlr : latencyRanked s = [] := by rw [latencyRanked, hlf]; rfl
      rw [getProxyCandidates_speed_eq, hsr, hlr]
      simp

/-- The C7 witness store: three latency_passed rows with delays 50, 80 and
65 and no speed_passed row. -/
def c7Store : Store :=
  [{ id := 1, link := "l50", status := some "latency_passed",
     delay := some 50, download := none, upload := none,
     location := some "US", last_tested := some 5, speed_tested_at := none,
     retry_count := 0 },
   { id := 2, link := "l80", status := some "latency_passed",
     delay := some 80, download := none, upload := none,
     location := some "US", last_tested := some 6, speed_tested_at := none,
     retry_count := 0 },
   { id := 3, link := "l65", status := some "latency_passed",
     delay := some 65, download := none, upload := none,
     location := some "US", last_tested := some 7, speed_tested_at := none,
     retry_count := 0 }]

/-- Witness for C7: with no speed_passed rows and max_links 2 the selector
falls back to the latency ranking and returns the two lowest delays in
ascending order, within the max_links bound. -/
theorem proxyCandidates_witness :
    getProxyCandidates "speed_passed" 2 c7Store = ["l50", "l65"] ∧
      (getProxyCandidates "speed_passed" 2 c7Store).length ≤ 2 :=
  ⟨by decide, (proxyCandidates_spec c7Store 2 (by decide)).1 "speed_passed"⟩
